import Mathlib

/-!
Verification of the dependency-aware, rate-limited, cached upgrade pipeline
(`src/`): shallow embeddings of `parallel_processor.py`, `dependency_analyzer.py`,
`chunker.py`, `cache_manager.py` and `agentic_upgrader.py`, together with
theorems settling the specification claims.

Modelling conventions:
* Python wall-clock times (floats) are modelled as rationals `ℚ`.
* Python dictionaries are modelled as association lists with first-match lookup
  and insertion-order preserving overwrite (`setAssoc`), matching CPython dict
  semantics; `defaultdict(set)` graphs are modelled as total functions
  returning a (possibly empty) dependency list.
* Recursions that Python bounds by runtime state growth are given an explicit
  fuel argument and return `Option`; `none` is unreachable for sufficient fuel.
* External collaborators (`llm_interface.call_llm`, `validator`, `utils`) are
  not part of `src/` and are modelled as oracle function parameters.
-/

namespace Pipeline

/-! ## RateLimiter (`parallel_processor.py`, lines 8-47) -/

/-- State of `RateLimiter`: capacity, window width (seconds), and the deque of
recorded admission timestamps, oldest first. -/
structure RateLimiter where
  max_calls : Nat
  time_window : ℚ
  calls : List ℚ
  deriving Repr, DecidableEq

/-- The pruning loop of `acquire`:
`while self.calls and self.calls[0] < now - self.time_window: self.calls.popleft()`. -/
def pruneCalls (window now : ℚ) : List ℚ → List ℚ
  | [] => []
  | c :: cs => if c < now - window then pruneCalls window now cs else c :: cs

/-- Embeds `RateLimiter.acquire` (lines 21-41).  Returns the wait time and the updated
limiter.  `none` models the `IndexError` Python would raise reading
`self.calls[0]` from an empty deque (reachable only when `max_calls = 0`). -/
def acquire (rl : RateLimiter) (now : ℚ) : Option (ℚ × RateLimiter) :=
  let calls := pruneCalls rl.time_window now rl.calls
  if calls.length < rl.max_calls then
    some (0, ⟨rl.max_calls, rl.time_window, calls ++ [now]⟩)
  else
    match calls with
    | [] => none
    | oldest :: rest =>
      some (max 0 ((oldest + rl.time_window) - now), ⟨rl.max_calls, rl.time_window, oldest :: rest⟩)

/-- One caller passing through `wait_if_needed` (lines 43-47) with the call
arriving at time `t`: `acquire` runs at `t`, the caller then sleeps `wait`
seconds and proceeds (is admitted) at `t + wait`.  Note the code does not
re-acquire or record anything after the sleep. -/
def admitStep (rl : RateLimiter) (t : ℚ) : Option (ℚ × RateLimiter) :=
  match acquire rl t with
  | none => none
  | some (wait, rl') => some (t + wait, rl')

/-- Sequential callers going through `wait_if_needed` at the given arrival
times; returns the list of admission times. -/
def admitTimes (rl : RateLimiter) : List ℚ → Option (List ℚ × RateLimiter)
  | [] => some ([], rl)
  | t :: ts =>
    match admitStep rl t with
    | none => none
    | some (a, rl') =>
      match admitTimes rl' ts with
      | none => none
      | some (rest, rlF) => some (a :: rest, rlF)

/-- Number of admissions falling inside the half-open window `[a, a + w)`. -/
def countInWindow (admissions : List ℚ) (a w : ℚ) : Nat :=
  (admissions.filter (fun x => decide (a ≤ x ∧ x < a + w))).length

/-! ## Dependency levels (`dependency_analyzer.py`, lines 165-194)

Work items are identified by natural numbers; `deps x` is
`self.dependency_graph[x]` (a `defaultdict(set)`, hence total with default
`[]`), given in some iteration order.  The memo dict `levels` is an
association list with unique keys, newest entry first. -/

/-- Dict lookup in the memo table `levels`. -/
def lookupMemo (memo : List (Nat × Nat)) (x : Nat) : Option Nat :=
  (memo.find? (fun p => p.1 == x)).map (·.2)

/-- Largest level currently assigned (0 for an empty memo). -/
def maxAssigned (memo : List (Nat × Nat)) : Nat :=
  (memo.map (·.2)).foldr max 0

/-- Embeds `max(levels.values()) + 1 if levels else 0` (line 178): the value returned
when a node already being visited is revisited. -/
def cycleLevel (memo : List (Nat × Nat)) : Nat :=
  match memo with
  | [] => 0
  | _ => maxAssigned memo + 1

/-- Embeds `max(step(dep) for dep in ds)` with the shared memo threaded left to right
through the dependency list; `step` is the recursive `get_level` call. -/
def getLevelMaxAux (step : Nat → List (Nat × Nat) → Option (Nat × List (Nat × Nat))) :
    List Nat → List (Nat × Nat) → Option (Nat × List (Nat × Nat))
  | [], memo => some (0, memo)
  | d :: ds, memo =>
    match step d memo with
    | none => none
    | some (l, memo') =>
      match getLevelMaxAux step ds memo' with
      | none => none
      | some (m, memo'') => some (max l m, memo'')

/-- Embeds `get_level(file_path, visiting)` (lines 172-189): memoised recursive level
computation with a per-path `visiting` set, threading the shared memo.  Python
bounds the recursion by the growth of `visiting`; here an explicit fuel bounds
it and `none` marks fuel exhaustion (unreachable for sufficient fuel). -/
def getLevelCore (deps : Nat → List Nat) :
    Nat → Nat → List Nat → List (Nat × Nat) → Option (Nat × List (Nat × Nat))
  | 0, _, _, _ => none
  | fuel + 1, x, visiting, memo =>
    match lookupMemo memo x with
    | some l => some (l, memo)
    | none =>
      if x ∈ visiting then some (cycleLevel memo, memo)
      else
        match deps x with
        | [] => some (0, (x, 0) :: memo)
        | d :: ds =>
          match getLevelMaxAux (fun e memo' => getLevelCore deps fuel e (x :: visiting) memo')
              (d :: ds) memo with
          | none => none
          | some (m, memo') => some (m + 1, (x, m + 1) :: memo')

/-- Embeds `max(get_level(dep, visiting.copy()) for dep in deps)` (line 186). -/
def getLevelMax (deps : Nat → List Nat) (fuel : Nat) (ds visiting : List Nat)
    (memo : List (Nat × Nat)) : Option (Nat × List (Nat × Nat)) :=
  getLevelMaxAux (fun e memo' => getLevelCore deps fuel e visiting memo') ds memo

/-- Embeds `get_dependency_levels` (lines 165-194): run `get_level` with an empty
visiting set for every analysed file, accumulating the shared `levels` memo. -/
def get_dependency_levels (deps : Nat → List Nat) (files : List Nat) (fuel : Nat) :
    Option (List (Nat × Nat)) :=
  files.foldlM (fun memo x =>
    match getLevelCore deps fuel x [] memo with
    | none => none
    | some (_, memo') => some memo') []

/-- Append `f` to the bucket of `lvl`, preserving dict insertion order
(new keys go to the end), as a Python dict of lists does. -/
def appendAtLevel : List (Nat × List Nat) → Nat → Nat → List (Nat × List Nat)
  | [], lvl, f => [(lvl, [f])]
  | (k, fs) :: rest, lvl, f =>
    if k = lvl then (k, fs ++ [f]) :: rest else (k, fs) :: appendAtLevel rest lvl f

/-- Embeds `DependencyBatchProcessor.group_by_level` (`parallel_processor.py`,
lines 190-200): bucket the files by `self.dependency_levels.get(file, 0)`. -/
def group_by_level (dependency_levels : List (Nat × Nat)) (files : List Nat) :
    List (Nat × List Nat) :=
  files.foldl (fun acc f => appendAtLevel acc ((lookupMemo dependency_levels f).getD 0) f) []

/-- Insertion step for sorting the level groups by key. -/
def insertSortedGroup (p : Nat × List Nat) : List (Nat × List Nat) → List (Nat × List Nat)
  | [] => [p]
  | q :: qs => if p.1 ≤ q.1 then p :: q :: qs else q :: insertSortedGroup p qs

/-- Embeds `for level in sorted(grouped.keys())` (`process_by_levels`, line 216): the
groups in ascending level order, i.e. the processing order of the batches. -/
def sortedGroups (g : List (Nat × List Nat)) : List (Nat × List Nat) :=
  g.foldr insertSortedGroup []

/-- Spec scenario graph: items `A = 0`, `B = 1`, `C = 2` with A depending on B
and B depending on C. -/
def scenDeps : Nat → List Nat := fun x => if x = 0 then [1] else if x = 1 then [2] else []

/-! ## Cycle detection (`dependency_analyzer.py`, lines 137-163) -/

/-- Shared mutable state of `_detect_cycles`: the `visited` set, the recursion
stack, the accumulated cycle reports, and the key list of the `defaultdict`
`dependency_graph` (insertion order).  `visited` never shrinks, `rec_stack` is
restored on exit, and `keys` grows when `dfs` subscripts a missing node. -/
structure DfsState where
  visited : List Nat
  recStack : List Nat
  cycles : List (List Nat)
  keys : List Nat
  deriving Repr, DecidableEq

/-- The `for neighbor in self.dependency_graph[node]` loop (lines 148-155):
unvisited neighbours are explored by the recursive call `stepDfs`; a visited
neighbour on the recursion stack contributes the cycle
`path[path.index(neighbor):] + [neighbor]`. -/
def dfsNeighborsAux (stepDfs : Nat → DfsState → Option DfsState) (path : List Nat) :
    List Nat → DfsState → Option DfsState
  | [], st => some st
  | nb :: nbs, st =>
    if nb ∈ st.visited then
      if nb ∈ st.recStack then
        dfsNeighborsAux stepDfs path nbs
          ⟨st.visited, st.recStack, st.cycles ++ [path.drop (path.indexOf nb) ++ [nb]], st.keys⟩
      else
        dfsNeighborsAux stepDfs path nbs st
    else
      match stepDfs nb st with
      | none => none
      | some st' => dfsNeighborsAux stepDfs path nbs st'

/-- Embeds `dfs(node, path)` (lines 143-157).  `path` is the copied call path; the
state is the shared `visited` / `rec_stack` / `cycles` / `keys`.  The subscript
`self.dependency_graph[node]` on line 148 is a `defaultdict` access: for a node
that is not yet a key it yields the fresh empty set AND inserts the node into
the dict's keys.  Fuel bounds the recursion, `none` marking exhaustion. -/
def dfs (deps : Nat → List Nat) : Nat → Nat → List Nat → DfsState → Option DfsState
  | 0, _, _, _ => none
  | fuel + 1, node, path, st =>
    match dfsNeighborsAux (fun nb st' => dfs deps fuel nb (path ++ [node]) st')
        (path ++ [node]) (if node ∈ st.keys then deps node else [])
        ⟨node :: st.visited, node :: st.recStack, st.cycles,
          if node ∈ st.keys then st.keys else st.keys ++ [node]⟩ with
    | none => none
    | some st2 => some ⟨st2.visited, st2.recStack.erase node, st2.cycles, st2.keys⟩

/-- The neighbour loop of `dfs` with the recursive step instantiated. -/
def dfsNeighbors (deps : Nat → List Nat) (fuel : Nat) (nbs path : List Nat)
    (st : DfsState) : Option DfsState :=
  dfsNeighborsAux (fun nb st' => dfs deps fuel nb path st') path nbs st

/-- Embeds the outer loop `for file_path in self.dependency_graph.keys():`
(lines 159-161).  CPython's dict iterator compares the dict's current size to
the size at iterator creation (`n0`) before yielding each key AND before
raising the terminating `StopIteration`; a changed size raises
`RuntimeError: dictionary changed size during iteration`, modelled as
`Except.error ()`.  Since `dfs` only ever inserts keys, an unchanged size
means the dict — hence its key order — is unchanged, so iterating the frozen
initial key list with the size check is exact. -/
def detectLoop (deps : Nat → List Nat) (fuel n0 : Nat) :
    List Nat → DfsState → Option (Except Unit DfsState)
  | [], st => some (if st.keys.length = n0 then Except.ok st else Except.error ())
  | k :: ks, st =>
    if st.keys.length ≠ n0 then some (Except.error ())
    else if k ∈ st.visited then detectLoop deps fuel n0 ks st
    else match dfs deps fuel k [] st with
      | none => none
      | some st' => detectLoop deps fuel n0 ks st'

/-- Embeds `_detect_cycles` (lines 137-163): run `dfs` from every
not-yet-visited key of the dependency graph, starting from empty shared state,
under the live-dict-view iteration of `detectLoop`.  `Except.error ()` is the
propagated `RuntimeError`. -/
def detect_cycles (deps : Nat → List Nat) (keys : List Nat) (fuel : Nat) :
    Option (Except Unit DfsState) :=
  detectLoop deps fuel keys.length keys ⟨[], [], [], keys⟩

/-- Predicate: `c` is a directed cycle of `deps` through the iterated keys: nonempty,
consecutive members are edges, and the last member has an edge back to the
head. -/
def IsCycleIn (deps : Nat → List Nat) (keys : List Nat) (c : List Nat) : Prop :=
  c ≠ [] ∧ (∀ x ∈ c, x ∈ keys) ∧ c.Chain' (fun a b => b ∈ deps a) ∧
    ∀ lst hd, c.getLast? = some lst → c.head? = some hd → hd ∈ deps lst

/-- Two-node cycle: `0` and `1` depend on each other. -/
def cyc2Deps : Nat → List Nat := fun x => if x = 0 then [1] else if x = 1 then [0] else []

/-- Cyclic graph with a reachable leaf: keys `0` and `1` with edges `0 → 1`,
`1 → 0` and `1 → 2`; node `2` has no dependencies of its own and so is not a
key of the `defaultdict`. -/
def cyc3Deps : Nat → List Nat :=
  fun x => if x = 0 then [1] else if x = 1 then [0, 2] else []

/-- The iterated key set is closed under the dependency relation: `dfs` then
never subscripts a non-key node and the `defaultdict` never grows. -/
def KeyClosed (deps : Nat → List Nat) (K : List Nat) : Prop :=
  ∀ k ∈ K, ∀ d ∈ deps k, d ∈ K

/-- Invariant: `bl` enumerates the fully processed (black) nodes, most recently finished
first; every dependency of a listed node was finished earlier, i.e. appears in
the tail. -/
def GoodList (deps : Nat → List Nat) : List Nat → Prop
  | [] => True
  | a :: rest => (∀ b ∈ deps a, b ∈ rest) ∧ GoodList deps rest

/-- The black nodes of a DFS state (`visited` minus the recursion stack) admit
a duplicate-free finish-ordered enumeration compatible with `deps`. -/
def BlackInv (deps : Nat → List Nat) (st : DfsState) : Prop :=
  ∃ bl : List Nat, bl.Nodup ∧ (∀ x, x ∈ bl ↔ x ∈ st.visited ∧ x ∉ st.recStack) ∧
    GoodList deps bl

/-- Induction payload for `dfs` on a key set `K` closed under `deps`: the key
list stays `K`, the recursion stack is restored, `visited` only grows and
contains the node, `cycles` only grows, and if no cycle was ever recorded the
black-order invariant is maintained with the node finished. -/
def DfsOK (deps : Nat → List Nat) (K : List Nat) (fuel : Nat) : Prop :=
  ∀ node path st st',
    node ∈ K → st.keys = K →
    node ∉ st.visited → st.recStack ⊆ st.visited → st.recStack.Nodup →
    dfs deps fuel node path st = some st' →
    st'.keys = K ∧ st'.recStack = st.recStack ∧ (∀ y ∈ st.visited, y ∈ st'.visited) ∧
      node ∈ st'.visited ∧ (∃ ext, st'.cycles = st.cycles ++ ext) ∧
      ((st.cycles = [] → BlackInv deps st) → st'.cycles = [] → BlackInv deps st')

/-- Induction payload for the neighbour loop of `dfs`. -/
def NbOK (deps : Nat → List Nat) (K : List Nat) (fuel : Nat) : Prop :=
  ∀ nbs path st st',
    (∀ nb ∈ nbs, nb ∈ K) → st.keys = K →
    st.recStack ⊆ st.visited → st.recStack.Nodup →
    dfsNeighbors deps fuel nbs path st = some st' →
    st'.keys = K ∧ st'.recStack = st.recStack ∧ (∀ y ∈ st.visited, y ∈ st'.visited) ∧
      (∃ ext, st'.cycles = st.cycles ++ ext) ∧
      ((st.cycles = [] → BlackInv deps st) → st'.cycles = [] →
        BlackInv deps st' ∧ ∀ nb ∈ nbs, nb ∈ st'.visited ∧ nb ∉ st'.recStack)

/-- Monotonicity payload for `getLevelCore` on arbitrary (possibly cyclic)
graphs: successful runs preserve existing memo entries, and only nodes outside
the visiting path acquire new entries. -/
def CoreMono (deps : Nat → List Nat) (fuel : Nat) : Prop :=
  ∀ x visiting memo l memo',
    getLevelCore deps fuel x visiting memo = some (l, memo') →
    (∀ y vl, lookupMemo memo y = some vl → lookupMemo memo' y = some vl) ∧
    (∀ y vl, lookupMemo memo y = none → lookupMemo memo' y = some vl → y ∉ visiting)

/-- Monotonicity payload for `getLevelMax`. -/
def AuxMono (deps : Nat → List Nat) (fuel : Nat) : Prop :=
  ∀ ds visiting memo m memo',
    getLevelMax deps fuel ds visiting memo = some (m, memo') →
    (∀ y vl, lookupMemo memo y = some vl → lookupMemo memo' y = some vl) ∧
    (∀ y vl, lookupMemo memo y = none → lookupMemo memo' y = some vl → y ∉ visiting)

/-- Local correctness of every memo entry: a memoised node with no
dependencies has level 0, and every dependency of a memoised node is memoised
at a strictly smaller level. -/
def MemoInv (deps : Nat → List Nat) (memo : List (Nat × Nat)) : Prop :=
  ∀ p ∈ memo, (deps p.1 = [] → p.2 = 0) ∧
    ∀ d ∈ deps p.1, ∃ ld, lookupMemo memo d = some ld ∧ ld < p.2

/-- Induction payload for `getLevelCore` on an acyclic graph (`rank` strictly
decreases along dependency edges): the memo invariant is preserved, the
computed node ends up memoised at the returned level, old entries survive, and
every new entry ranks strictly below everything on the visiting path. -/
def CoreOK (deps : Nat → List Nat) (rank : Nat → Nat) (fuel : Nat) : Prop :=
  ∀ x visiting memo l memo'',
    MemoInv deps memo →
    (∀ v ∈ visiting, rank x < rank v) →
    getLevelCore deps fuel x visiting memo = some (l, memo'') →
    MemoInv deps memo'' ∧ lookupMemo memo'' x = some l ∧
      (∀ y vl, lookupMemo memo y = some vl → lookupMemo memo'' y = some vl) ∧
      (∀ y vl, lookupMemo memo y = none → lookupMemo memo'' y = some vl →
        ∀ w ∈ visiting, rank y < rank w)

/-- Induction payload for `getLevelMax`, the fold over a dependency list. -/
def MaxOK (deps : Nat → List Nat) (rank : Nat → Nat) (fuel : Nat) : Prop :=
  ∀ ds visiting memo m memo'',
    MemoInv deps memo →
    (∀ d ∈ ds, ∀ v ∈ visiting, rank d < rank v) →
    getLevelMax deps fuel ds visiting memo = some (m, memo'') →
    MemoInv deps memo'' ∧ (∀ d ∈ ds, ∃ ld, lookupMemo memo'' d = some ld ∧ ld ≤ m) ∧
      (∀ y vl, lookupMemo memo y = some vl → lookupMemo memo'' y = some vl) ∧
      (∀ y vl, lookupMemo memo y = none → lookupMemo memo'' y = some vl →
        ∀ w ∈ visiting, rank y < rank w)

/-! ## Chunker (`chunker.py`, lines 81-117)

Python strings are Lean `String`s; `code.split('\n')` is modelled character by
character by `splitNl` (which agrees with CPython: the empty string splits to
`['']`, a trailing newline yields a trailing `''`). -/

/-- Embeds `s.split('\n')` on the character list. -/
def splitNl : List Char → List (List Char)
  | [] => [[]]
  | c :: cs =>
    match splitNl cs with
    | [] => [[]]
    | l :: ls => if c = '\n' then [] :: l :: ls else (c :: l) :: ls

/-- Embeds `code.split('\n')` (`lines = code.split('\n')`). -/
def pySplitLines (s : String) : List String := (splitNl s.data).map (fun l => String.mk l)

/-- Embeds `'\n'.join(...)` on character lists. -/
def joinNl : List (List Char) → List Char
  | [] => []
  | [l] => l
  | l :: l2 :: ls => l ++ '\n' :: joinNl (l2 :: ls)

/-- Embeds `'\n'.join(lines)`. -/
def joinLines (ls : List String) : String := String.mk (joinNl (ls.map String.data))

/-- One chunk dict produced by `CodeChunker` (`type`/`name`/`code`/
`start_line`/`end_line`/`imports`). -/
structure Chunk where
  kind : String
  name : String
  code : String
  start_line : Nat
  end_line : Nat
  imports : String
  deriving Repr, DecidableEq

/-- The `for i in range(0, len(lines), self.max_lines)` loop of
`_chunk_by_lines` (lines 104-115).  Fuel bounds the loop (Python's `range`
terminates; with `max_lines = 0` Python would raise `ValueError`). -/
def chunkByLinesGo (maxLines : Nat) : Nat → Nat → List String → List Chunk
  | 0, _, _ => []
  | _, _, [] => []
  | fuel + 1, i, l :: ls =>
    let chunk_lines := (l :: ls).take maxLines
    { kind := "partial",
      name := "lines_" ++ toString i ++ "_" ++ toString (i + chunk_lines.length),
      code := joinLines chunk_lines,
      start_line := i,
      end_line := i + chunk_lines.length,
      imports := "" } :: chunkByLinesGo maxLines fuel (i + maxLines) ((l :: ls).drop maxLines)

/-- Embeds `CodeChunker._chunk_by_lines` (lines 99-117): the fallback fixed-size
line-range chunking used when AST parsing fails. -/
def chunk_by_lines (maxLines : Nat) (code : String) : List Chunk :=
  chunkByLinesGo maxLines (pySplitLines code).length 0 (pySplitLines code)

/-- The `for i in range(0, len(lines), self.max_lines)` loop of
`_split_large_chunk` (lines 86-95); `totalLen` is the fixed `len(lines)`. -/
def splitLargeChunkGo (maxLines start_line totalLen : Nat) (imports : String) :
    Nat → Nat → List String → List Chunk
  | 0, _, _ => []
  | _, _, [] => []
  | fuel + 1, i, l :: ls =>
    { kind := "partial",
      name := "partial_" ++ toString (start_line + i),
      code := joinLines ((l :: ls).take maxLines),
      start_line := start_line + i,
      end_line := start_line + min (i + maxLines) totalLen,
      imports := imports } :: splitLargeChunkGo maxLines start_line totalLen imports
        fuel (i + maxLines) ((l :: ls).drop maxLines)

/-- Embeds `CodeChunker._split_large_chunk` (lines 81-97): fixed-size splitting of an
oversized declaration, each piece keeping the shared imports. -/
def split_large_chunk (maxLines : Nat) (chunk_code : String) (start_line : Nat)
    (imports : String) : List Chunk :=
  splitLargeChunkGo maxLines start_line (pySplitLines chunk_code).length imports
    (pySplitLines chunk_code).length 0 (pySplitLines chunk_code)

/-- The chunks tile the line range `[start, stop)` in original order: each
chunk starts where the previous one ended, is nonempty, at most `m` lines
long, and the last one ends at `stop`. -/
def covers (m : Nat) : Nat → Nat → List Chunk → Prop
  | start, stop, [] => start = stop
  | start, stop, ch :: rest =>
    ch.start_line = start ∧ start < ch.end_line ∧ ch.end_line ≤ stop ∧
      ch.end_line - ch.start_line ≤ m ∧ covers m ch.end_line stop rest

/-- The per-slice code contents of a fixed-size line chunking. -/
def charSlices (m : Nat) : Nat → List (List Char) → List (List Char)
  | 0, _ => []
  | _, [] => []
  | fuel + 1, l :: ls =>
    joinNl ((l :: ls).take m) :: charSlices m fuel ((l :: ls).drop m)

/-! ## Retrying transform worker (`agentic_upgrader.py`)

`llm_interface`, `validator` and `utils` are external collaborators (not in
`src/`); they appear as oracle parameters.  `transform` models
`clean_llm_response(llm_interface.call_llm(utils.build_prompt(current, error)))`
— indexed by the attempt number since the external call is nondeterministic —
and `LLMOutcome.err` models an exception escaping that call.  `validate`
models `validator.validate_code` applied to the freshly written output file
(its message component is meaningful when invalid).  `FileUpgradeResult` keeps
the fields the claims mention (`file_path`, `success`, `attempts`, `error`);
the reporting-only `api_changes`/`diff` payloads are omitted. -/

/-- Outcome of one external Transformer invocation. -/
inductive LLMOutcome where
  | resp (code : String)
  | err (msg : String)
  deriving Repr, DecidableEq

/-- Embeds `report_generator.FileUpgradeResult`, reporting fields omitted. -/
structure FileUpgradeResult where
  file_path : String
  success : Bool
  attempts : Nat
  error : Option String
  deriving Repr, DecidableEq

/-- Python `str.strip()`. -/
def pyStrip (s : String) : String :=
  String.mk (((s.data.dropWhile Char.isWhitespace).reverse.dropWhile
    Char.isWhitespace).reverse)

/-- Python `str.lower()`. -/
def strLower (s : String) : String := String.mk (s.data.map Char.toLower)

/-- Python `pat in s` (substring test) on character lists. -/
def listContains (pat : List Char) : List Char → Bool
  | [] => pat.isEmpty
  | c :: cs => pat.isPrefixOf (c :: cs) || listContains pat cs

/-- Python `pat in s`. -/
def containsSub (pat s : String) : Bool := listContains pat.data s.data

/-- Python `s.startswith(pre)`. -/
def startsWithStr (pre s : String) : Bool := pre.data.isPrefixOf s.data

/-- Embeds `"token" in error.lower() or "context_length" in error.lower() or
"maximum context length" in error.lower()` (`_upgrade_standard`, line 120). -/
def isTokenMsg (e : String) : Bool :=
  containsSub "token" (strLower e) || containsSub "context_length" (strLower e) ||
    containsSub "maximum context length" (strLower e)

/-- The apology prefixes of `_upgrade_standard` line 87. -/
def apologyPrefixes : List String :=
  ["i'm sorry", "im sorry", "sorry", "i cannot", "i can't"]

/-- Embeds `stripped_code.lower().startswith(apology_prefixes)`. -/
def isApology (stripped : String) : Bool :=
  apologyPrefixes.any (fun p => p.data.isPrefixOf (strLower stripped).data)

/-- The retry loop of `_upgrade_standard` (lines 70-141), `remaining` counting
the attempts still available (`maxRetries - attempt + 1` at the top call) so
that the loop runs `for attempt in range(1, MAX_RETRIES + 1)`. -/
def upgradeStandardGo (transform : Nat → String → Option String → LLMOutcome)
    (validate : String → Bool × String) (input_path : String) (maxRetries : Nat) :
    Nat → Nat → String → Option String → FileUpgradeResult
  | 0, _, _, error =>
    ⟨input_path, false, maxRetries,
      some (match error with
        | none => "Maximum retries exceeded"
        | some e => if e = "" then "Maximum retries exceeded" else e)⟩
  | remaining + 1, attempt, current_code, error =>
    match transform attempt current_code error with
    | .err m =>
      if isTokenMsg m then
        ⟨input_path, false, attempt, some ("Token limit exceeded: " ++ m)⟩
      else
        upgradeStandardGo transform validate input_path maxRetries remaining
          (attempt + 1) current_code (some m)
    | .resp new_code =>
      if pyStrip new_code = "" then
        upgradeStandardGo transform validate input_path maxRetries remaining
          (attempt + 1) current_code (some "LLM returned empty response")
      else if isApology (pyStrip new_code)
          || startsWithStr "# upgraded code here" (pyStrip new_code) then
        upgradeStandardGo transform validate input_path maxRetries remaining
          (attempt + 1) current_code
          (some "LLM returned placeholder text instead of upgraded code")
      else if (validate new_code).1 then
        ⟨input_path, true, attempt, none⟩
      else
        upgradeStandardGo transform validate input_path maxRetries remaining
          (attempt + 1) new_code (some (validate new_code).2)

/-- Embeds `_upgrade_standard` entry: attempt 1, the original content, no prior
error. -/
def upgrade_standard (transform : Nat → String → Option String → LLMOutcome)
    (validate : String → Bool × String) (input_path old_code : String)
    (maxRetries : Nat) : FileUpgradeResult :=
  upgradeStandardGo transform validate input_path maxRetries maxRetries 1 old_code none

/-- The token-limit escalation test of `upgrade_file` (line 57):
`not result.success and result.error and ("token" in result.error.lower() or
"context_length" in result.error.lower())`. -/
def tokenEscalate (res : FileUpgradeResult) : Bool :=
  !res.success && (match res.error with
    | none => false
    | some e => e ≠ "" && (containsSub "token" (strLower e) ||
        containsSub "context_length" (strLower e)))

/-- The hybrid size dispatch of `upgrade_file` (lines 47-67), with the two
strategy outcomes abstracted: small files run the standard path only, medium
files escalate a token-limited standard result to the chunked path, large
files chunk from the start. -/
def upgrade_file_decision (line_count : Nat) (standard chunked : FileUpgradeResult) :
    FileUpgradeResult :=
  if line_count < 1000 then standard
  else if line_count < 3000 then
    if tokenEscalate standard then chunked else standard
  else chunked

/-! ## Chunked upgrade aggregation (`agentic_upgrader.py`, lines 144-249) -/

/-- Per-chunk processing loop of `_upgrade_chunked` (lines 159-213), with the
per-chunk retry loop abstracted by `outcome`: `outcome i = some (att, text)`
means chunk `i` was upgraded in `att` attempts producing `text` (already
import-stripped, as appended to `upgraded_chunks`); `none` means every attempt
failed, so the original chunk code is kept and the chunk's name is recorded as
failed.  Returns `(upgraded_chunks, failed_chunks, total_attempts)`. -/
def runChunks (outcome : Nat → Option (Nat × String)) (maxRetries : Nat) :
    Nat → List Chunk → List String × List String × Nat
  | _, [] => ([], [], 0)
  | i, ch :: rest =>
    let r := runChunks outcome maxRetries (i + 1) rest
    match outcome i with
    | some (att, text) => (text :: r.1, r.2.1, att + r.2.2)
    | none => (ch.code :: r.1, ch.name :: r.2.1, maxRetries + r.2.2)

/-- Reassembly (lines 216-223): the first chunk's imports once at the top (if
nonempty), then every chunk output, joined by blank lines. -/
def reassemble (first_chunk : Chunk) (upgraded_chunks : List String) : String :=
  String.intercalate "\n\n"
    ((if first_chunk.imports ≠ "" then [first_chunk.imports] else []) ++ upgraded_chunks)

/-- Tail of `_upgrade_chunked` (lines 215-249): write the reassembled file,
re-validate it, accept iff valid and at least 80% of the chunks succeeded, and
assemble the error message from the failed chunk names and the validation
error.  Returns the written artifact and the result; `none` models the
`IndexError` Python raises at `chunks[0]` when the chunk list is empty. -/
def upgradeChunkedFinish (input_path : String) (chunks : List Chunk)
    (upgraded_chunks failed_chunks : List String) (total_attempts : Nat)
    (validate : String → Bool × String) : Option (String × FileUpgradeResult) :=
  match chunks with
  | [] => none
  | first :: _ =>
    let final_code := reassemble first upgraded_chunks
    let v := validate final_code
    let success_rate : ℚ :=
      ((chunks.length : ℚ) - (failed_chunks.length : ℚ)) / (chunks.length : ℚ)
    let success := v.1 && decide ((4 : ℚ) / 5 ≤ success_rate)
    let result_error : Option String :=
      if failed_chunks ≠ [] then
        if !v.1 then
          some ("Failed chunks: " ++ String.intercalate ", " failed_chunks
            ++ "; Validation error: " ++ v.2)
        else
          some ("Failed chunks: " ++ String.intercalate ", " failed_chunks)
      else if !v.1 then some ("Validation error: " ++ v.2)
      else none
    some (final_code, ⟨input_path, success, total_attempts, result_error⟩)

/-- Embeds `_upgrade_chunked` (lines 144-249) with the external per-chunk calls
abstracted by `outcome`. -/
def upgrade_chunked (input_path : String) (chunks : List Chunk)
    (outcome : Nat → Option (Nat × String)) (maxRetries : Nat)
    (validate : String → Bool × String) : Option (String × FileUpgradeResult) :=
  let r := runChunks outcome maxRetries 0 chunks
  upgradeChunkedFinish input_path chunks r.1 r.2.1 r.2.2 validate

/-! ## Cache (`cache_manager.py`)

Files are addressed by their (relative-path) key; the content hash function
`hash` (`_get_file_hash`, MD5 in the source) is an oracle parameter; the JSON
store and the `upgraded/` blob directory are association lists. -/

/-- One record of `cache_data["files"]`. -/
structure CacheEntry where
  success : Bool
  attempts : Nat
  input_hash : String
  error : Option String
  cached_output : Option String
  deriving Repr, DecidableEq

/-- The persistent cache: the JSON `files` dict plus the `upgraded/` blob
directory (path ↦ stored output). -/
structure CacheState where
  files : List (String × CacheEntry)
  blobs : List (String × String)
  deriving Repr, DecidableEq

/-- Dict lookup by string key. -/
def findAssoc {β : Type} (l : List (String × β)) (k : String) : Option β :=
  (l.find? (fun p => p.1 == k)).map (·.2)

/-- Dict overwrite by string key (CPython keeps the original slot position for
an existing key and appends a new key at the end). -/
def setAssoc {β : Type} : List (String × β) → String → β → List (String × β)
  | [], k, v => [(k, v)]
  | (k', v') :: rest, k, v =>
    if k' = k then (k, v) :: rest else (k', v') :: setAssoc rest k v

/-- Embeds `os.path.join(self.cache_dir, "upgraded", rel_path)` (line 79). -/
def blobPath (key : String) : String := ".ml_upgrader_cache/upgraded/" ++ key

/-- Embeds `CacheManager.is_file_cached` (lines 41-62); `currentContent` is what the
file at the key currently holds. -/
def is_file_cached (hash : String → String) (st : CacheState) (key : String)
    (currentContent : String) : Bool :=
  match findAssoc st.files key with
  | none => false
  | some e =>
    if hash currentContent ≠ e.input_hash then false
    else if e.success = false then false
    else true

/-- Embeds `CacheManager.cache_result` (lines 64-85); `currentContent` is the input
file's content at record time (hashed into `input_hash`).  The upgraded code
is persisted, and referenced from the entry, only when it is truthy (nonempty)
and the result succeeded. -/
def cache_result (hash : String → String) (st : CacheState) (key : String)
    (res : FileUpgradeResult) (upgraded_code : Option String)
    (currentContent : String) : CacheState :=
  let entry : CacheEntry :=
    ⟨res.success, res.attempts, hash currentContent, res.error, none⟩
  match upgraded_code with
  | some code =>
    if code ≠ "" ∧ res.success = true then
      { files := setAssoc st.files key { entry with cached_output := some (blobPath key) },
        blobs := setAssoc st.blobs (blobPath key) code }
    else { st with files := setAssoc st.files key entry }
  | none => { st with files := setAssoc st.files key entry }

/-- Embeds `CacheManager.restore_from_cache` (lines 87-109): returns the content
written to the destination, `none` when the restore returned `False` (missing
entry, missing reference, or missing blob file). -/
def restore_from_cache (st : CacheState) (key : String) : Option String :=
  match findAssoc st.files key with
  | none => none
  | some e =>
    match e.cached_output with
    | none => none
    | some p => findAssoc st.blobs p

/-! ## Parallel batch (`parallel_processor.py`, lines 67-148)

`oracle` models `process_func(file_path, ...)` run in the executor: `.ok r` is
its returned result, `.error e` an exception it raised (`str(e)`). -/

/-- Embeds `ParallelProcessor.process_file_async` (lines 67-104) without the
progress-counter bookkeeping: exceptions become failed results. -/
def process_file_async (oracle : String → Except String FileUpgradeResult)
    (f : String) : FileUpgradeResult :=
  match oracle f with
  | .ok r => r
  | .error e => ⟨f, false, 0, some ("Processing error: " ++ e)⟩

/-- Embeds `ParallelProcessor.process_batch` (lines 106-148): one task per file, the
results zipped back with the files into `result_dict` (dict insertion,
duplicates overwriting). -/
def process_batch (oracle : String → Except String FileUpgradeResult)
    (files : List String) : List (String × FileUpgradeResult) :=
  (files.map (fun f => (f, process_file_async oracle f))).foldl
    (fun d p => setAssoc d p.1 p.2) []

/-! ## Concrete instances used by witnesses -/

/-- A whole-file chunk as produced by `chunk_by_functions` when no top-level
declarations exist. -/
def chunkFull : Chunk := ⟨"full", "entire_file", "print(1)", 0, 1, ""⟩

/-- A per-chunk oracle that always succeeds in one attempt. -/
def okOutcome : Nat → Option (Nat × String) := fun _ => some (1, "print(2)")

/-- A validator that always accepts. -/
def okValidate : String → Bool × String := fun _ => (true, "")

/-- A fresh cache directory. -/
def emptyCache : CacheState := ⟨[], []⟩

/-! ## Lemmas about pruning -/

theorem pruneCalls_eq_filter (window now : ℚ) :
    ∀ (l : List ℚ), l.Chain' (· ≤ ·) →
      pruneCalls window now l = l.filter (fun c => decide (now - window ≤ c)) := by
  intro l hl
  induction l with
  | nil => rfl
  | cons c cs ih =>
    rw [List.chain'_cons'] at hl
    obtain ⟨hhead, htail⟩ := hl
    by_cases hc : c < now - window
    · have hd : decide (now - window ≤ c) = false := decide_eq_false (not_le.mpr hc)
      rw [pruneCalls, if_pos hc, List.filter_cons_of_neg (by simp only [hd]; exact Bool.false_ne_true)]
      exact ih htail
    · have hle : now - window ≤ c := not_lt.mp hc
      have hd : decide (now - window ≤ c) = true := decide_eq_true hle
      rw [pruneCalls, if_neg hc, List.filter_cons_of_pos (by exact hd)]
      have hall : ∀ x ∈ cs, now - window ≤ x := by
        intro x hx
        have hpair : List.Pairwise (· ≤ ·) (c :: cs) := by
          rw [← List.chain'_iff_pairwise, List.chain'_cons']
          exact ⟨hhead, htail⟩
        exact le_trans hle ((List.pairwise_cons.mp hpair).1 x hx)
      have : List.filter (fun c => decide (now - window ≤ c)) cs = cs := by
        rw [List.filter_eq_self]
        intro x hx
        exact decide_eq_true (hall x hx)
      rw [this]

theorem mem_pruneCalls_of_sorted (window now : ℚ) (l : List ℚ) (hl : l.Chain' (· ≤ ·)) :
    ∀ x ∈ pruneCalls window now l, now - window ≤ x := by
  intro x hx
  rw [pruneCalls_eq_filter window now l hl] at hx
  have := List.of_mem_filter hx
  exact of_decide_eq_true this

/-- C2: on a limiter with sorted recorded timestamps and capacity at least one,
`acquire` first drops exactly the timestamps older than `now − W`; if fewer than
`max_calls` remain it records `now` and returns wait `0`; otherwise it returns
`(oldest + W) − now`, which is never negative, and records nothing.  With
`maxCalls = 2`, `window = 10`, three acquires at `t = 0` return `0`, `0`, `10`. -/
theorem rateLimiter_acquire_spec (rl : RateLimiter) (now : ℚ)
    (hsorted : rl.calls.Chain' (· ≤ ·)) (hcap : 1 ≤ rl.max_calls) :
    (pruneCalls rl.time_window now rl.calls
        = rl.calls.filter (fun c => decide (now - rl.time_window ≤ c))) ∧
    ((pruneCalls rl.time_window now rl.calls).length < rl.max_calls →
      acquire rl now = some (0, ⟨rl.max_calls, rl.time_window,
        pruneCalls rl.time_window now rl.calls ++ [now]⟩)) ∧
    (¬ (pruneCalls rl.time_window now rl.calls).length < rl.max_calls →
      ∃ oldest rest, pruneCalls rl.time_window now rl.calls = oldest :: rest ∧
        0 ≤ oldest + rl.time_window - now ∧
        acquire rl now = some (oldest + rl.time_window - now,
          ⟨rl.max_calls, rl.time_window, oldest :: rest⟩)) ∧
    (acquire ⟨2, 10, []⟩ 0 = some (0, ⟨2, 10, [0]⟩) ∧
     acquire ⟨2, 10, [0]⟩ 0 = some (0, ⟨2, 10, [0, 0]⟩) ∧
     acquire ⟨2, 10, [0, 0]⟩ 0 = some (10, ⟨2, 10, [0, 0]⟩)) := by
  refine ⟨pruneCalls_eq_filter _ _ _ hsorted, ?_, ?_,
    by norm_num [acquire, pruneCalls], by norm_num [acquire, pruneCalls],
    by norm_num [acquire, pruneCalls]⟩
  · intro hlt
    simp only [acquire]
    rw [if_pos hlt]
  · intro hge
    rcases hcons : pruneCalls rl.time_window now rl.calls with _ | ⟨o, rest⟩
    · exfalso
      apply hge
      rw [hcons]
      exact lt_of_lt_of_le Nat.zero_lt_one hcap
    · have homem : o ∈ pruneCalls rl.time_window now rl.calls := by
        rw [hcons]; exact List.mem_cons_self o rest
      have h0 : now - rl.time_window ≤ o :=
        mem_pruneCalls_of_sorted rl.time_window now rl.calls hsorted o homem
      refine ⟨o, rest, rfl, by linarith, ?_⟩
      simp only [acquire]
      rw [hcons] at hge ⊢
      rw [if_neg hge]
      show some (max 0 ((o + rl.time_window) - now),
        RateLimiter.mk rl.max_calls rl.time_window (o :: rest)) = _
      rw [max_eq_right (by linarith : (0 : ℚ) ≤ (o + rl.time_window) - now)]

/-- Witness for `rateLimiter_acquire_spec` at the spec scenario: the third
`acquire` at `t = 0` on a `RateLimiter(2, 10)` returns a wait of `10`. -/
theorem rateLimiter_acquire_spec_witness :
    acquire ⟨2, 10, [0, 0]⟩ 0 = some (10, ⟨2, 10, [0, 0]⟩) :=
  (rateLimiter_acquire_spec ⟨2, 10, [0, 0]⟩ 0
    (by norm_num [List.chain'_cons, List.chain'_singleton]) (by norm_num)).2.2.2.2.2

/-- C3 (code bug): `wait_if_needed` sleeps for the wait returned by `acquire`
but never records the admission afterwards, so the sliding-window bound fails.
With capacity `1` and window `10`, callers arriving at `t = 0, 0, 10` are
admitted at `t = 0, 10, 10`: two admissions inside one 10-second window; the
second caller's admission at `t = 10` left the recorded timestamps unchanged
(`[0]`), which is what lets the third caller in immediately. -/
theorem wait_if_needed_violates_window :
    admitTimes ⟨1, 10, []⟩ [0, 0, 10] = some ([0, 10, 10], ⟨1, 10, [0]⟩) ∧
    admitStep ⟨1, 10, [0]⟩ 0 = some (10, ⟨1, 10, [0]⟩) ∧
    countInWindow [0, 10, 10] 10 10 = 2 ∧ 1 < 2 := by
  refine ⟨by norm_num [admitTimes, admitStep, acquire, pruneCalls],
    by norm_num [admitStep, acquire, pruneCalls],
    by norm_num [countInWindow, List.filter], by norm_num⟩

/-! ## Lemmas about the memo table -/

theorem lookupMemo_mem {memo : List (Nat × Nat)} {x l : Nat}
    (h : lookupMemo memo x = some l) : (x, l) ∈ memo := by
  unfold lookupMemo at h
  cases hf : memo.find? (fun p => p.1 == x) with
  | none => rw [hf] at h; simp at h
  | some p =>
    rw [hf] at h
    simp only [Option.map_some', Option.some.injEq] at h
    have hmem := List.mem_of_find?_eq_some hf
    have hkey : p.1 = x := by
      have := List.find?_some hf
      exact beq_iff_eq.mp this
    have : p = (x, l) := by
      cases p
      simp only [Prod.mk.injEq]
      exact ⟨hkey, h⟩
    rw [← this]
    exact hmem

theorem lookupMemo_cons_self (memo : List (Nat × Nat)) (x v : Nat) :
    lookupMemo ((x, v) :: memo) x = some v := by
  unfold lookupMemo
  rw [List.find?_cons_of_pos]
  · rfl
  · simp

theorem lookupMemo_cons_ne (memo : List (Nat × Nat)) {x y : Nat} (v : Nat) (h : y ≠ x) :
    lookupMemo ((x, v) :: memo) y = lookupMemo memo y := by
  unfold lookupMemo
  have : ((x, v).1 == y) = false := by
    simp only [beq_eq_false_iff_ne, ne_eq]
    exact fun hxy => h hxy.symm
  rw [List.find?_cons, this]

theorem lookupMemo_cons_fresh {memo : List (Nat × Nat)} {x y l v : Nat}
    (hfresh : lookupMemo memo x = none) (h : lookupMemo memo y = some l) :
    lookupMemo ((x, v) :: memo) y = some l := by
  have hxy : y ≠ x := by
    intro he
    rw [he] at h
    rw [h] at hfresh
    cases hfresh
  rw [lookupMemo_cons_ne memo v hxy, h]

theorem lookupMemo_cons_cases {memo : List (Nat × Nat)} {x y l v : Nat}
    (h : lookupMemo ((x, v) :: memo) y = some l) :
    (y = x ∧ l = v) ∨ lookupMemo memo y = some l := by
  by_cases hxy : y = x
  · subst hxy
    rw [lookupMemo_cons_self] at h
    exact Or.inl ⟨rfl, (Option.some.injEq _ _).mp h.symm⟩
  · rw [lookupMemo_cons_ne memo v hxy] at h
    exact Or.inr h

/-- Preservation: `MemoInv` is preserved by inserting a fresh key whose dependencies are all
memoised strictly below the inserted level. -/
theorem memoInv_insert {deps : Nat → List Nat} {memo : List (Nat × Nat)} {x lx : Nat}
    (hinv : MemoInv deps memo) (hfresh : lookupMemo memo x = none)
    (hzero : deps x = [] → lx = 0)
    (hdeps : ∀ d ∈ deps x, ∃ ld, lookupMemo memo d = some ld ∧ ld < lx) :
    MemoInv deps ((x, lx) :: memo) := by
  intro p hp
  rcases List.mem_cons.mp hp with hhd | htl
  · subst hhd
    refine ⟨hzero, ?_⟩
    intro d hd
    obtain ⟨ld, hld, hlt⟩ := hdeps d hd
    exact ⟨ld, lookupMemo_cons_fresh hfresh hld, hlt⟩
  · obtain ⟨hz, hd⟩ := hinv p htl
    refine ⟨hz, ?_⟩
    intro d hdd
    obtain ⟨ld, hld, hlt⟩ := hd d hdd
    exact ⟨ld, lookupMemo_cons_fresh hfresh hld, hlt⟩

/-! ## Acyclic correctness of the level computation (C1) -/

theorem max_ok_of_core_ok {deps : Nat → List Nat} {rank : Nat → Nat} {fuel : Nat}
    (hcore : CoreOK deps rank fuel) : MaxOK deps rank fuel := by
  intro ds
  induction ds with
  | nil =>
    intro visiting memo m memo'' hinv _ hrun
    simp only [getLevelMax, getLevelMaxAux, Option.some.injEq, Prod.mk.injEq] at hrun
    obtain ⟨hm, hmemo⟩ := hrun
    rw [← hmemo]
    refine ⟨hinv, by simp, fun y vl h => h, ?_⟩
    intro y vl hnone hsome
    rw [hnone] at hsome
    cases hsome
  | cons d ds ih =>
    intro visiting memo m memo'' hinv hvis hrun
    simp only [getLevelMax, getLevelMaxAux] at hrun
    cases hc : getLevelCore deps fuel d visiting memo with
    | none => simp only [hc] at hrun; cases hrun
    | some p =>
      obtain ⟨ld, memo1⟩ := p
      simp only [hc] at hrun
      cases hm2 : getLevelMax deps fuel ds visiting memo1 with
      | none =>
        simp only [getLevelMax] at hm2
        simp only [hm2] at hrun; cases hrun
      | some q =>
        obtain ⟨m2, memo2⟩ := q
        simp only [getLevelMax] at hm2
        simp only [hm2, Option.some.injEq, Prod.mk.injEq] at hrun
        obtain ⟨hmv, hmemo⟩ := hrun
        rw [← hmemo, ← hmv]
        have hvd : ∀ v ∈ visiting, rank d < rank v := hvis d (List.mem_cons_self d ds)
        obtain ⟨hinv1, hlook1, hmono1, hnew1⟩ := hcore d visiting memo ld memo1 hinv hvd hc
        have hvt : ∀ e ∈ ds, ∀ v ∈ visiting, rank e < rank v := by
          intro e he
          exact hvis e (List.mem_cons_of_mem d he)
        obtain ⟨hinv2, hds2, hmono2, hnew2⟩ := ih visiting memo1 m2 memo2 hinv1 hvt hm2
        refine ⟨hinv2, ?_, ?_, ?_⟩
        · intro e he
          rcases List.mem_cons.mp he with rfl | hin
          · exact ⟨ld, hmono2 e ld hlook1, le_max_left _ _⟩
          · obtain ⟨le, hle, hlem⟩ := hds2 e hin
            exact ⟨le, hle, le_trans hlem (le_max_right _ _)⟩
        · intro y vl h
          exact hmono2 y vl (hmono1 y vl h)
        · intro y vl hnone hsome w hw
          cases h1 : lookupMemo memo1 y with
          | some v1 => exact hnew1 y v1 hnone h1 w hw
          | none => exact hnew2 y vl h1 hsome w hw

theorem core_ok {deps : Nat → List Nat} {rank : Nat → Nat}
    (hacyc : ∀ a d, d ∈ deps a → rank d < rank a) :
    ∀ fuel, CoreOK deps rank fuel := by
  intro fuel
  induction fuel with
  | zero =>
    intro x visiting memo l memo'' _ _ hrun
    simp only [getLevelCore] at hrun
    cases hrun
  | succ fuel ih =>
    intro x visiting memo l memo'' hinv hvis hrun
    simp only [getLevelCore] at hrun
    cases hm : lookupMemo memo x with
    | some l0 =>
      simp only [hm, Option.some.injEq, Prod.mk.injEq] at hrun
      obtain ⟨hl, hmemo⟩ := hrun
      rw [← hmemo, ← hl]
      refine ⟨hinv, hm, fun y vl h => h, ?_⟩
      intro y vl hnone hsome
      rw [hnone] at hsome
      cases hsome
    | none =>
      simp only [hm] at hrun
      by_cases hxv : x ∈ visiting
      · exact absurd (hvis x hxv) (lt_irrefl _)
      · rw [if_neg hxv] at hrun
        cases hd : deps x with
        | nil =>
          simp only [hd, Option.some.injEq, Prod.mk.injEq] at hrun
          obtain ⟨hl, hmemo⟩ := hrun
          rw [← hmemo, ← hl]
          refine ⟨?_, lookupMemo_cons_self memo x 0, ?_, ?_⟩
          · exact memoInv_insert hinv hm (fun _ => rfl) (by rw [hd]; intro d hdm; cases hdm)
          · intro y vl h
            exact lookupMemo_cons_fresh hm h
          · intro y vl hnone hsome w hw
            rcases lookupMemo_cons_cases hsome with ⟨rfl, _⟩ | hmem
            · exact hvis w hw
            · rw [hnone] at hmem; cases hmem
        | cons d ds =>
          simp only [hd] at hrun
          cases hmx : getLevelMax deps fuel (d :: ds) (x :: visiting) memo with
          | none =>
            simp only [getLevelMax] at hmx
            simp only [hmx] at hrun; cases hrun
          | some q =>
            obtain ⟨m, memo1⟩ := q
            simp only [getLevelMax] at hmx
            simp only [hmx, Option.some.injEq, Prod.mk.injEq] at hrun
            obtain ⟨hl, hmemo⟩ := hrun
            rw [← hmemo, ← hl]
            have hvds : ∀ e ∈ d :: ds, ∀ v ∈ x :: visiting, rank e < rank v := by
              intro e he v hv
              have hex : rank e < rank x := hacyc x e (by rw [hd]; exact he)
              rcases List.mem_cons.mp hv with rfl | hvv
              · exact hex
              · exact lt_trans hex (hvis v hvv)
            obtain ⟨hinv1, hds1, hmono1, hnew1⟩ :=
              max_ok_of_core_ok ih (d :: ds) (x :: visiting) memo m memo1 hinv hvds hmx
            have hfresh1 : lookupMemo memo1 x = none := by
              cases hx1 : lookupMemo memo1 x with
              | none => rfl
              | some vx =>
                exact absurd (hnew1 x vx hm hx1 x (List.mem_cons_self x visiting))
                  (lt_irrefl _)
            refine ⟨?_, lookupMemo_cons_self memo1 x (m + 1), ?_, ?_⟩
            · refine memoInv_insert hinv1 hfresh1 (by rw [hd]; intro h; cases h) ?_
              intro e he
              rw [hd] at he
              obtain ⟨le, hle, hlem⟩ := hds1 e he
              exact ⟨le, hle, Nat.lt_succ_of_le hlem⟩
            · intro y vl h
              exact lookupMemo_cons_fresh hfresh1 (hmono1 y vl h)
            · intro y vl hnone hsome w hw
              rcases lookupMemo_cons_cases hsome with ⟨rfl, _⟩ | hmem
              · exact hvis w hw
              · exact hnew1 y vl hnone hmem w (List.mem_cons_of_mem x hw)

/-- The outer `for file_path in self.file_imports.keys(): get_level(file_path, set())`
loop preserves the memo invariant, preserves existing entries, and leaves every
iterated file memoised. -/
theorem levels_fold {deps : Nat → List Nat} {rank : Nat → Nat}
    (hacyc : ∀ a d, d ∈ deps a → rank d < rank a) :
    ∀ (files : List Nat) (fuel : Nat) (memo levels : List (Nat × Nat)),
      MemoInv deps memo →
      files.foldlM (fun memo x =>
        match getLevelCore deps fuel x [] memo with
        | none => none
        | some (_, memo') => some memo') memo = some levels →
      MemoInv deps levels ∧
        (∀ y vl, lookupMemo memo y = some vl → lookupMemo levels y = some vl) ∧
        (∀ x ∈ files, ∃ lx, lookupMemo levels x = some lx) := by
  intro files
  induction files with
  | nil =>
    intro fuel memo levels hinv hrun
    simp only [List.foldlM_nil] at hrun
    cases hrun
    exact ⟨hinv, fun y vl h => h, by simp⟩
  | cons x files ih =>
    intro fuel memo levels hinv hrun
    simp only [List.foldlM_cons] at hrun
    cases hc : getLevelCore deps fuel x [] memo with
    | none =>
      rw [hc] at hrun
      cases hrun
    | some p =>
      obtain ⟨lx, memo1⟩ := p
      rw [hc] at hrun
      simp only [Option.bind_eq_bind, Option.some_bind] at hrun
      obtain ⟨hinv1, hlook1, hmono1, _⟩ :=
        core_ok hacyc fuel x [] memo lx memo1 hinv (by simp) hc
      obtain ⟨hinvF, hmono2, hall⟩ := ih fuel memo1 levels hinv1 hrun
      refine ⟨hinvF, ?_, ?_⟩
      · intro y vl h
        exact hmono2 y vl (hmono1 y vl h)
      · intro z hz
        rcases List.mem_cons.mp hz with rfl | hin
        · exact ⟨lx, hmono2 z lx hlook1⟩
        · exact hall z hin

/-- C1: on an acyclic dependency graph (witnessed by a rank function that
strictly decreases along every dependency edge), every successful run of
`get_dependency_levels` assigns level 0 to every iterated item without
dependencies and a strictly larger level to the depending side of every edge;
on the spec scenario A→B→C the levels are C=0, B=1, A=2 and the groups in
processing order are [{C}, {B}, {A}]. -/
theorem dependency_levels_acyclic_correct (deps : Nat → List Nat) (rank : Nat → Nat)
    (files : List Nat) (fuel : Nat) (levels : List (Nat × Nat))
    (hacyc : ∀ a d, d ∈ deps a → rank d < rank a)
    (hrun : get_dependency_levels deps files fuel = some levels) :
    (∀ x ∈ files, deps x = [] → lookupMemo levels x = some 0) ∧
    (∀ a ∈ files, ∀ b ∈ deps a,
      ∃ la lb, lookupMemo levels a = some la ∧ lookupMemo levels b = some lb ∧ lb < la) ∧
    (get_dependency_levels scenDeps [0, 1, 2] 10 = some [(0, 2), (1, 1), (2, 0)] ∧
     lookupMemo [(0, 2), (1, 1), (2, 0)] 2 = some 0 ∧
     lookupMemo [(0, 2), (1, 1), (2, 0)] 1 = some 1 ∧
     lookupMemo [(0, 2), (1, 1), (2, 0)] 0 = some 2 ∧
     sortedGroups (group_by_level [(0, 2), (1, 1), (2, 0)] [0, 1, 2])
        = [(0, [2]), (1, [1]), (2, [0])]) := by
  have hbase : MemoInv deps [] := by
    intro p hp
    cases hp
  obtain ⟨hinvF, _, hall⟩ :=
    levels_fold hacyc files fuel [] levels hbase hrun
  refine ⟨?_, ?_, by decide, by decide, by decide, by decide, by decide⟩
  · intro x hx hdeps
    obtain ⟨lx, hlx⟩ := hall x hx
    have hmem := lookupMemo_mem hlx
    have := (hinvF (x, lx) hmem).1 hdeps
    rw [hlx]
    exact congrArg some this
  · intro a ha b hb
    obtain ⟨la, hla⟩ := hall a ha
    have hmem := lookupMemo_mem hla
    obtain ⟨lb, hlb, hlt⟩ := (hinvF (a, la) hmem).2 b hb
    exact ⟨la, lb, hla, hlb, hlt⟩

/-- Witness for `dependency_levels_acyclic_correct`, at the spec scenario
graph: the edge A→B gets strictly decreasing levels, and the computed map is
C=0, B=1, A=2. -/
theorem dependency_levels_acyclic_correct_witness :
    ∃ la lb, lookupMemo [(0, 2), (1, 1), (2, 0)] 0 = some la ∧
      lookupMemo [(0, 2), (1, 1), (2, 0)] 1 = some lb ∧ lb < la := by
  have h := dependency_levels_acyclic_correct scenDeps (fun x => 2 - x) [0, 1, 2] 10
    [(0, 2), (1, 1), (2, 0)]
    (by
      intro a d hd
      by_cases h0 : a = 0
      · subst h0
        simp [scenDeps] at hd
        subst hd
        decide
      · by_cases h1 : a = 1
        · subst h1
          simp [scenDeps] at hd
          subst hd
          decide
        · simp [scenDeps, h0, h1] at hd)
    (by decide)
  exact h.2.1 0 (by decide) 1 (by decide)

/-! ## Termination and memoisation of the level computation on arbitrary
graphs (C4) -/

theorem aux_mono_of_core_mono {deps : Nat → List Nat} {fuel : Nat}
    (hc : CoreMono deps fuel) : AuxMono deps fuel := by
  intro ds
  induction ds with
  | nil =>
    intro visiting memo m memo' hrun
    simp only [getLevelMax, getLevelMaxAux, Option.some.injEq, Prod.mk.injEq] at hrun
    obtain ⟨_, hmemo⟩ := hrun
    rw [← hmemo]
    exact ⟨fun y vl h => h, fun y vl hn hs => by rw [hn] at hs; cases hs⟩
  | cons d ds ih =>
    intro visiting memo m memo' hrun
    simp only [getLevelMax, getLevelMaxAux] at hrun
    cases hcall : getLevelCore deps fuel d visiting memo with
    | none => simp only [hcall] at hrun; cases hrun
    | some p =>
      obtain ⟨l1, memo1⟩ := p
      simp only [hcall] at hrun
      cases hrest : getLevelMax deps fuel ds visiting memo1 with
      | none =>
        simp only [getLevelMax] at hrest
        simp only [hrest] at hrun
        cases hrun
      | some q =>
        obtain ⟨m2, memo2⟩ := q
        simp only [getLevelMax] at hrest
        simp only [hrest, Option.some.injEq, Prod.mk.injEq] at hrun
        obtain ⟨_, hmemo⟩ := hrun
        rw [← hmemo]
        obtain ⟨hm1, hn1⟩ := hc d visiting memo l1 memo1 hcall
        obtain ⟨hm2, hn2⟩ := ih visiting memo1 m2 memo2 hrest
        refine ⟨fun y vl h => hm2 y vl (hm1 y vl h), ?_⟩
        intro y vl hn hs
        cases h1 : lookupMemo memo1 y with
        | some v1 => exact hn1 y v1 hn h1
        | none => exact hn2 y vl h1 hs

theorem core_mono {deps : Nat → List Nat} : ∀ fuel, CoreMono deps fuel := by
  intro fuel
  induction fuel with
  | zero =>
    intro x visiting memo l memo' hrun
    simp only [getLevelCore] at hrun
    cases hrun
  | succ fuel ih =>
    intro x visiting memo l memo' hrun
    simp only [getLevelCore] at hrun
    cases hm : lookupMemo memo x with
    | some l0 =>
      simp only [hm, Option.some.injEq, Prod.mk.injEq] at hrun
      obtain ⟨_, hmemo⟩ := hrun
      rw [← hmemo]
      exact ⟨fun y vl h => h, fun y vl hn hs => by rw [hn] at hs; cases hs⟩
    | none =>
      simp only [hm] at hrun
      by_cases hxv : x ∈ visiting
      · rw [if_pos hxv] at hrun
        simp only [Option.some.injEq, Prod.mk.injEq] at hrun
        obtain ⟨_, hmemo⟩ := hrun
        rw [← hmemo]
        exact ⟨fun y vl h => h, fun y vl hn hs => by rw [hn] at hs; cases hs⟩
      · rw [if_neg hxv] at hrun
        cases hd : deps x with
        | nil =>
          simp only [hd, Option.some.injEq, Prod.mk.injEq] at hrun
          obtain ⟨_, hmemo⟩ := hrun
          rw [← hmemo]
          refine ⟨fun y vl h => lookupMemo_cons_fresh hm h, ?_⟩
          intro y vl hn hs
          rcases lookupMemo_cons_cases hs with ⟨rfl, _⟩ | hmem
          · exact hxv
          · rw [hn] at hmem; cases hmem
        | cons d ds =>
          simp only [hd] at hrun
          cases hmx : getLevelMax deps fuel (d :: ds) (x :: visiting) memo with
          | none =>
            simp only [getLevelMax] at hmx
            simp only [hmx] at hrun
            cases hrun
          | some q =>
            obtain ⟨m, memo1⟩ := q
            simp only [getLevelMax] at hmx
            simp only [hmx, Option.some.injEq, Prod.mk.injEq] at hrun
            obtain ⟨_, hmemo⟩ := hrun
            rw [← hmemo]
            obtain ⟨hm1, hn1⟩ := aux_mono_of_core_mono ih (d :: ds) (x :: visiting)
              memo m memo1 (by simp only [getLevelMax]; exact hmx)
            have hfresh1 : lookupMemo memo1 x = none := by
              cases hx1 : lookupMemo memo1 x with
              | none => rfl
              | some vx =>
                exact absurd (List.mem_cons_self x visiting)
                  (hn1 x vx hm hx1)
            refine ⟨?_, ?_⟩
            · intro y vl h
              exact lookupMemo_cons_fresh hfresh1 (hm1 y vl h)
            · intro y vl hn hs
              rcases lookupMemo_cons_cases hs with ⟨rfl, _⟩ | hmem
              · exact hxv
              · intro hyv
                exact hn1 y vl hn hmem (List.mem_cons_of_mem x hyv)

theorem nodup_lt_length_le {l : List Nat} {n : Nat} (hnd : l.Nodup)
    (hlt : ∀ v ∈ l, v < n) : l.length ≤ n := by
  have h1 : l.toFinset.card = l.length := List.toFinset_card_of_nodup hnd
  have h2 : l.toFinset ⊆ Finset.range n := by
    intro v hv
    rw [Finset.mem_range]
    exact hlt v (List.mem_toFinset.mp hv)
  calc l.length = l.toFinset.card := h1.symm
    _ ≤ (Finset.range n).card := Finset.card_le_card h2
    _ = n := Finset.card_range n

/-- With fuel exceeding the number of still-unvisited graph nodes,
`get_level` cannot run out: the Python recursion always terminates. -/
theorem getLevelCore_sufficient {deps : Nat → List Nat} {n : Nat}
    (hbound : ∀ y, deps y ≠ [] → y < n) :
    ∀ fuel x visiting memo, (∀ v ∈ visiting, v < n) → visiting.Nodup →
      n + 1 - visiting.length ≤ fuel →
      (getLevelCore deps fuel x visiting memo).isSome := by
  intro fuel
  induction fuel with
  | zero =>
    intro x visiting memo hlt hnd hfuel
    have := nodup_lt_length_le hnd hlt
    omega
  | succ fuel ih =>
    intro x visiting memo hlt hnd hfuel
    simp only [getLevelCore]
    cases hm : lookupMemo memo x with
    | some l0 => simp
    | none =>
      simp only []
      by_cases hxv : x ∈ visiting
      · rw [if_pos hxv]; simp
      · rw [if_neg hxv]
        cases hd : deps x with
        | nil => simp
        | cons d ds =>
          have hx : x < n := hbound x (by rw [hd]; simp)
          have hlen := nodup_lt_length_le hnd hlt
          have hcall : ∀ e memo1,
              (getLevelCore deps fuel e (x :: visiting) memo1).isSome := by
            intro e memo1
            apply ih e (x :: visiting) memo1
            · intro v hv
              rcases List.mem_cons.mp hv with rfl | h
              · exact hx
              · exact hlt v h
            · exact List.nodup_cons.mpr ⟨hxv, hnd⟩
            · simp only [List.length_cons]
              omega
          have haux : ∀ es memo1,
              (getLevelMaxAux (fun e memo' => getLevelCore deps fuel e (x :: visiting) memo')
                es memo1).isSome := by
            intro es
            induction es with
            | nil => intro memo1; simp [getLevelMaxAux]
            | cons e es ihes =>
              intro memo1
              simp only [getLevelMaxAux]
              cases hcs : getLevelCore deps fuel e (x :: visiting) memo1 with
              | none =>
                have := hcall e memo1
                rw [hcs] at this
                cases this
              | some p =>
                obtain ⟨l1, memo2⟩ := p
                simp only []
                cases hrest : getLevelMaxAux
                    (fun e memo' => getLevelCore deps fuel e (x :: visiting) memo') es memo2 with
                | none =>
                  have := ihes memo2
                  rw [hrest] at this
                  cases this
                | some q => simp
          cases hax : getLevelMaxAux
              (fun e memo' => getLevelCore deps fuel e (x :: visiting) memo') (d :: ds) memo with
          | none =>
            have := haux (d :: ds) memo
            rw [hax] at this
            cases this
          | some q =>
            obtain ⟨m, memo1⟩ := q
            simp only [hax]
            rfl

/-- One successful top-level `get_level(x, set())` call leaves `x` memoised. -/
theorem getLevelCore_present {deps : Nat → List Nat} {fuel x : Nat}
    {memo memo' : List (Nat × Nat)} {l : Nat}
    (hrun : getLevelCore deps fuel x [] memo = some (l, memo')) :
    lookupMemo memo' x = some l := by
  cases fuel with
  | zero =>
    simp only [getLevelCore] at hrun
    cases hrun
  | succ fuel =>
    simp only [getLevelCore] at hrun
    cases hm : lookupMemo memo x with
    | some l0 =>
      simp only [hm] at hrun
      cases hrun
      exact hm
    | none =>
      simp only [hm] at hrun
      rw [if_neg (List.not_mem_nil x)] at hrun
      cases hd : deps x with
      | nil =>
        simp only [hd] at hrun
        cases hrun
        exact lookupMemo_cons_self memo x 0
      | cons d ds =>
        simp only [hd] at hrun
        cases hax : getLevelMaxAux
            (fun e memo'' => getLevelCore deps fuel e (x :: []) memo'') (d :: ds) memo with
        | none =>
          simp only [hax] at hrun
          cases hrun
        | some q =>
          obtain ⟨m, memo1⟩ := q
          simp only [hax] at hrun
          cases hrun
          exact lookupMemo_cons_self memo1 x (m + 1)

/-- On any graph whose non-isolated nodes are bounded by `n`, the whole level
pass with fuel `n + 1` succeeds and memoises every iterated file. -/
theorem levels_total {deps : Nat → List Nat} {n : Nat}
    (hbound : ∀ y, deps y ≠ [] → y < n) :
    ∀ (files : List Nat) (memo : List (Nat × Nat)),
      ∃ levels, files.foldlM (fun memo x =>
          match getLevelCore deps (n + 1) x [] memo with
          | none => none
          | some (_, memo') => some memo') memo = some levels ∧
        (∀ y vl, lookupMemo memo y = some vl → lookupMemo levels y = some vl) ∧
        (∀ f ∈ files, (lookupMemo levels f).isSome) := by
  intro files
  induction files with
  | nil =>
    intro memo
    exact ⟨memo, by simp, fun y vl h => h, by simp⟩
  | cons x files ih =>
    intro memo
    have hs := getLevelCore_sufficient hbound (n + 1) x [] memo (by simp) List.nodup_nil
      (by simp)
    cases hc : getLevelCore deps (n + 1) x [] memo with
    | none => rw [hc] at hs; cases hs
    | some p =>
      obtain ⟨lx, memo1⟩ := p
      obtain ⟨levels, hfold, hmono, hall⟩ := ih memo1
      refine ⟨levels, ?_, ?_, ?_⟩
      · simp only [List.foldlM_cons, hc, Option.bind_eq_bind, Option.some_bind]
        exact hfold
      · intro y vl h
        exact hmono y vl ((core_mono (n + 1) x [] memo lx memo1 hc).1 y vl h)
      · intro f hf
        rcases List.mem_cons.mp hf with rfl | hin
        · have := hmono f lx (getLevelCore_present hc)
          rw [this]
          rfl
        · exact hall f hin

/-! ## DFS cycle detection on cyclic graphs (C4) -/

theorem blackInv_push {deps : Nat → List Nat} {st : DfsState} {node : Nat}
    {c' : List (List Nat)} {ks' : List Nat} (h : BlackInv deps st)
    (hnv : node ∉ st.visited) :
    BlackInv deps ⟨node :: st.visited, node :: st.recStack, c', ks'⟩ := by
  obtain ⟨bl, hnd, hmem, hgl⟩ := h
  refine ⟨bl, hnd, ?_, hgl⟩
  intro x
  simp only []
  constructor
  · intro hx
    obtain ⟨hv, hr⟩ := (hmem x).mp hx
    refine ⟨List.mem_cons_of_mem node hv, ?_⟩
    intro hc
    rcases List.mem_cons.mp hc with rfl | hcc
    · exact hnv hv
    · exact hr hcc
  · intro ⟨hv, hr⟩
    have hxn : x ≠ node := fun he => hr (he ▸ List.mem_cons_self node st.recStack)
    rcases List.mem_cons.mp hv with rfl | hvv
    · exact absurd rfl hxn
    · exact (hmem x).mpr ⟨hvv, fun hc => hr (List.mem_cons_of_mem node hc)⟩

theorem nb_ok_of_dfs_ok {deps : Nat → List Nat} {K : List Nat} {fuel : Nat}
    (hdfs : DfsOK deps K fuel) : NbOK deps K fuel := by
  intro nbs
  induction nbs with
  | nil =>
    intro path st st' hKn hkeys hsub hnd hrun
    simp only [dfsNeighbors, dfsNeighborsAux] at hrun
    cases hrun
    exact ⟨hkeys, rfl, fun y h => h, ⟨[], by simp⟩, fun hb hc => ⟨hb hc, by simp⟩⟩
  | cons nb nbs ih =>
    intro path st st' hKn hkeys hsub hnd hrun
    have hKnbs : ∀ x ∈ nbs, x ∈ K := fun x hx => hKn x (List.mem_cons_of_mem nb hx)
    simp only [dfsNeighbors, dfsNeighborsAux] at hrun
    by_cases hv : nb ∈ st.visited
    · rw [if_pos hv] at hrun
      by_cases hr : nb ∈ st.recStack
      · rw [if_pos hr] at hrun
        obtain ⟨h0, h1, h2, ⟨ext, hext⟩, _⟩ := ih path
          ⟨st.visited, st.recStack,
            st.cycles ++ [path.drop (path.indexOf nb) ++ [nb]], st.keys⟩
          st' hKnbs hkeys hsub hnd hrun
        refine ⟨h0, h1, h2, ⟨[path.drop (path.indexOf nb) ++ [nb]] ++ ext, by
          rw [hext]; simp⟩, ?_⟩
        intro _ hc
        rw [hc] at hext
        simp at hext
      · rw [if_neg hr] at hrun
        obtain ⟨h0, h1, h2, h3, h4⟩ := ih path st st' hKnbs hkeys hsub hnd hrun
        refine ⟨h0, h1, h2, h3, ?_⟩
        intro hb hc
        obtain ⟨hbi, hall⟩ := h4 hb hc
        refine ⟨hbi, ?_⟩
        intro e he
        rcases List.mem_cons.mp he with rfl | hin
        · exact ⟨h2 e hv, by rw [h1]; exact hr⟩
        · exact hall e hin
    · rw [if_neg hv] at hrun
      cases hdf : dfs deps fuel nb path st with
      | none =>
        simp only [hdf] at hrun
        cases hrun
      | some st1 =>
        simp only [hdf] at hrun
        obtain ⟨d0, d1, d2, d3, ⟨ext1, hext1⟩, d5⟩ :=
          hdfs nb path st st1 (hKn nb (List.mem_cons_self nb nbs)) hkeys hv hsub hnd hdf
        have hsub1 : st1.recStack ⊆ st1.visited := by
          rw [d1]
          intro y hy
          exact d2 y (hsub hy)
        have hnd1 : st1.recStack.Nodup := by rw [d1]; exact hnd
        obtain ⟨h0, h1, h2, ⟨ext2, hext2⟩, h4⟩ := ih path st1 st' hKnbs d0 hsub1 hnd1 hrun
        refine ⟨h0, by rw [h1, d1], fun y hy => h2 y (d2 y hy),
          ⟨ext1 ++ ext2, by rw [hext2, hext1, List.append_assoc]⟩, ?_⟩
        intro hb hc
        have hc1 : st1.cycles = [] := by
          rw [hc] at hext2
          rcases List.append_eq_nil.mp hext2.symm with ⟨ha, _⟩
          exact ha
        have hb1 : st1.cycles = [] → BlackInv deps st1 := fun _ => d5 hb hc1
        obtain ⟨hbi, hall⟩ := h4 hb1 hc
        refine ⟨hbi, ?_⟩
        intro e he
        rcases List.mem_cons.mp he with rfl | hin
        · refine ⟨h2 e d3, ?_⟩
          rw [h1, d1]
          intro hcon
          exact hv (hsub hcon)
        · exact hall e hin

theorem dfs_ok {deps : Nat → List Nat} {K : List Nat} (hcl : KeyClosed deps K) :
    ∀ fuel, DfsOK deps K fuel := by
  intro fuel
  induction fuel with
  | zero =>
    intro node path st st' _ _ _ _ _ hrun
    simp only [dfs] at hrun
    cases hrun
  | succ fuel ih =>
    intro node path st st' hKnode hkeys hnv hsub hnd hrun
    simp only [dfs] at hrun
    rw [hkeys, if_pos hKnode, if_pos hKnode] at hrun
    cases hnb : dfsNeighbors deps fuel (deps node) (path ++ [node])
        ⟨node :: st.visited, node :: st.recStack, st.cycles, K⟩ with
    | none =>
      simp only [dfsNeighbors] at hnb
      simp only [hnb] at hrun
      cases hrun
    | some st2 =>
      simp only [dfsNeighbors] at hnb
      simp only [hnb] at hrun
      cases hrun
      have hnode_nr : node ∉ st.recStack := fun h => hnv (hsub h)
      have hsub1 :
          (DfsState.mk (node :: st.visited) (node :: st.recStack) st.cycles K).recStack
          ⊆ (DfsState.mk (node :: st.visited) (node :: st.recStack) st.cycles K).visited := by
        intro y hy
        rcases List.mem_cons.mp hy with rfl | hyy
        · exact List.mem_cons_self y st.visited
        · exact List.mem_cons_of_mem node (hsub hyy)
      obtain ⟨n0, n1, n2, ⟨ext, hext⟩, n4⟩ := nb_ok_of_dfs_ok ih (deps node) (path ++ [node])
        ⟨node :: st.visited, node :: st.recStack, st.cycles, K⟩ st2 (hcl node hKnode) rfl hsub1
        (List.nodup_cons.mpr ⟨hnode_nr, hnd⟩) hnb
      have hrst : st2.recStack.erase node = st.recStack := by
        rw [n1]
        exact List.erase_cons_head node st.recStack
      refine ⟨n0, hrst, ?_, n2 node (List.mem_cons_self node st.visited), ⟨ext, hext⟩, ?_⟩
      · intro y hy
        exact n2 y (List.mem_cons_of_mem node hy)
      · intro hb hc
        have hc0 : st.cycles = [] := by
          rw [hc] at hext
          rcases List.append_eq_nil.mp hext.symm with ⟨ha, _⟩
          exact ha
        have hb1 : BlackInv deps ⟨node :: st.visited, node :: st.recStack, st.cycles, K⟩ :=
          blackInv_push (hb hc0) hnv
        obtain ⟨hbi2, hall⟩ := n4 (fun _ => hb1) hc
        obtain ⟨bl2, hnd2, hmem2, hgl2⟩ := hbi2
        have hnode_r2 : node ∈ st2.recStack := by
          rw [n1]
          exact List.mem_cons_self node st.recStack
        have hnode_nb : node ∉ bl2 := by
          intro h
          exact ((hmem2 node).mp h).2 hnode_r2
        refine ⟨node :: bl2, List.nodup_cons.mpr ⟨hnode_nb, hnd2⟩, ?_, ?_, hgl2⟩
        · intro x
          simp only [hrst]
          constructor
          · intro hx
            rcases List.mem_cons.mp hx with rfl | hxx
            · exact ⟨n2 x (List.mem_cons_self x st.visited), hnode_nr⟩
            · obtain ⟨hv2, hr2⟩ := (hmem2 x).mp hxx
              refine ⟨hv2, ?_⟩
              intro hcon
              exact hr2 (by rw [n1]; exact List.mem_cons_of_mem node hcon)
          · intro ⟨hv2, hr2⟩
            by_cases hxn : x = node
            · subst hxn
              exact List.mem_cons_self x bl2
            · refine List.mem_cons_of_mem node ((hmem2 x).mpr ⟨hv2, ?_⟩)
              rw [n1]
              intro hcon
              rcases List.mem_cons.mp hcon with h | h
              · exact hxn h
              · exact hr2 h
        · intro b hb'
          exact (hmem2 b).mpr (hall b hb')

theorem detect_fold {deps : Nat → List Nat} {fuel : Nat} {K : List Nat}
    (hcl : KeyClosed deps K) :
    ∀ (keys : List Nat) (st st' : DfsState),
      (∀ k ∈ keys, k ∈ K) → st.keys = K → st.recStack = [] →
      detectLoop deps fuel K.length keys st = some (Except.ok st') →
      st'.recStack = [] ∧ (∀ y ∈ st.visited, y ∈ st'.visited) ∧
        (∃ ext, st'.cycles = st.cycles ++ ext) ∧
        (∀ k ∈ keys, k ∈ st'.visited) ∧
        ((st.cycles = [] → BlackInv deps st) → st'.cycles = [] → BlackInv deps st') := by
  intro keys
  induction keys with
  | nil =>
    intro st st' hsubK hkeys hrs hrun
    simp only [detectLoop, hkeys, eq_self_iff_true, if_true, Option.some.injEq,
      Except.ok.injEq] at hrun
    subst hrun
    exact ⟨hrs, fun y h => h, ⟨[], by simp⟩, by simp, fun hb hc => hb hc⟩
  | cons k keys ih =>
    intro st st' hsubK hkeys hrs hrun
    have hsubK' : ∀ x ∈ keys, x ∈ K := fun x hx => hsubK x (List.mem_cons_of_mem k hx)
    simp only [detectLoop, hkeys] at hrun
    rw [if_neg (fun h => h rfl)] at hrun
    by_cases hk : k ∈ st.visited
    · rw [if_pos hk] at hrun
      obtain ⟨h1, h2, h3, h4, h5⟩ := ih st st' hsubK' hkeys hrs hrun
      refine ⟨h1, h2, h3, ?_, h5⟩
      intro e he
      rcases List.mem_cons.mp he with rfl | hin
      · exact h2 e hk
      · exact h4 e hin
    · rw [if_neg hk] at hrun
      cases hdf : dfs deps fuel k [] st with
      | none =>
        simp only [hdf] at hrun
        cases hrun
      | some st1 =>
        simp only [hdf] at hrun
        obtain ⟨d0, d1, d2, d3, ⟨ext1, hext1⟩, d5⟩ :=
          dfs_ok hcl fuel k [] st st1 (hsubK k (List.mem_cons_self k keys)) hkeys hk
            (by rw [hrs]; intro y hy; cases hy) (by rw [hrs]; exact List.nodup_nil) hdf
        obtain ⟨h1, h2, ⟨ext2, hext2⟩, h4, h5⟩ :=
          ih st1 st' hsubK' d0 (by rw [d1]; exact hrs) hrun
        refine ⟨h1, fun y hy => h2 y (d2 y hy),
          ⟨ext1 ++ ext2, by rw [hext2, hext1, List.append_assoc]⟩, ?_, ?_⟩
        · intro e he
          rcases List.mem_cons.mp he with rfl | hin
          · exact h2 e d3
          · exact h4 e hin
        · intro hb hc
          have hc1 : st1.cycles = [] := by
            rw [hc] at hext2
            rcases List.append_eq_nil.mp hext2.symm with ⟨ha, _⟩
            exact ha
          exact h5 (fun _ => d5 hb hc1) hc

theorem goodList_edge {deps : Nat → List Nat} :
    ∀ (bl : List Nat), bl.Nodup → GoodList deps bl →
      ∀ a ∈ bl, ∀ b ∈ deps a, b ∈ bl ∧ bl.indexOf a < bl.indexOf b := by
  intro bl
  induction bl with
  | nil =>
    intro _ _ a ha
    cases ha
  | cons u rest ih =>
    intro hnd hgl a ha b hb
    obtain ⟨hdep_u, hgl_rest⟩ := hgl
    have hu_nr : u ∉ rest := (List.nodup_cons.mp hnd).1
    have hnd_rest : rest.Nodup := (List.nodup_cons.mp hnd).2
    rcases List.mem_cons.mp ha with rfl | har
    · have hbr : b ∈ rest := hdep_u b hb
      have hbu : b ≠ a := fun h => hu_nr (h ▸ hbr)
      refine ⟨List.mem_cons_of_mem a hbr, ?_⟩
      rw [List.indexOf_cons_self]
      rw [List.indexOf_cons_ne _ (Ne.symm hbu)]
      exact Nat.succ_pos _
    · obtain ⟨hbr, hlt⟩ := ih hnd_rest hgl_rest a har b hb
      have hau : a ≠ u := fun h => hu_nr (h ▸ har)
      have hbu : b ≠ u := fun h => hu_nr (h ▸ hbr)
      refine ⟨List.mem_cons_of_mem u hbr, ?_⟩
      rw [List.indexOf_cons_ne _ (Ne.symm hau), List.indexOf_cons_ne _ (Ne.symm hbu)]
      omega

theorem chain_indexOf {deps : Nat → List Nat} {bl : List Nat} (hnd : bl.Nodup)
    (hgl : GoodList deps bl) :
    ∀ (c : List Nat), c.Chain' (fun a b => b ∈ deps a) → (∀ x ∈ c, x ∈ bl) →
      ∀ hd lst, c.head? = some hd → c.getLast? = some lst →
        bl.indexOf hd ≤ bl.indexOf lst := by
  intro c
  induction c with
  | nil =>
    intro _ _ hd lst h1 _
    cases h1
  | cons x c2 ih =>
    intro hch hmem hd lst hhd hlst
    simp only [List.head?_cons, Option.some.injEq] at hhd
    subst hhd
    cases c2 with
    | nil =>
      simp only [List.getLast?_singleton, Option.some.injEq] at hlst
      subst hlst
      exact le_refl _
    | cons y c3 =>
      rw [List.chain'_cons] at hch
      obtain ⟨hxy, hch2⟩ := hch
      have hxbl : x ∈ bl := hmem x (List.mem_cons_self x (y :: c3))
      obtain ⟨_, hlt⟩ := goodList_edge bl hnd hgl x hxbl y hxy
      rw [List.getLast?_cons_cons] at hlst
      have hrest := ih hch2 (fun z hz => hmem z (List.mem_cons_of_mem x hz)) y lst
        (by simp) hlst
      omega

theorem goodList_no_cycle {deps : Nat → List Nat} {bl : List Nat} (hnd : bl.Nodup)
    (hgl : GoodList deps bl) (c : List Nat) (hne : c ≠ [])
    (hmemc : ∀ x ∈ c, x ∈ bl) (hchain : c.Chain' (fun a b => b ∈ deps a))
    (hclose : ∀ lst hd, c.getLast? = some lst → c.head? = some hd → hd ∈ deps lst) :
    False := by
  cases c with
  | nil => exact hne rfl
  | cons x c2 =>
    have hlst : (x :: c2).getLast? = some ((x :: c2).getLast (by simp)) :=
      List.getLast?_eq_getLast_of_ne_nil (by simp)
    set lst := (x :: c2).getLast (by simp) with hlstdef
    have h1 : bl.indexOf x ≤ bl.indexOf lst :=
      chain_indexOf hnd hgl _ hchain hmemc x lst (by simp) hlst
    have hlst_mem : lst ∈ bl := hmemc lst (List.getLast_mem _)
    have hedge : x ∈ deps lst := hclose lst x hlst (by simp)
    obtain ⟨_, hlt⟩ := goodList_edge bl hnd hgl lst hlst_mem x hedge
    omega

/-- C4: `_detect_cycles` iterates the live `dependency_graph.keys()` view
while `dfs`'s `defaultdict` subscript inserts missing nodes, so on the cyclic
graph with keys `0, 1` and edges `0 → 1`, `1 → 0`, `1 → 2` the DFS records the
cycle `[0, 1, 0]` and grows the key set to `[0, 1, 2]`, whereupon the next
iterator step raises `RuntimeError: dictionary changed size during iteration`
(`Except.error ()`) instead of reporting the cycle.  When the key set is
closed under the dependency relation no insertion happens and a completed run
on a graph with a cycle through the keys reports at least one cycle.  The
level computation is unaffected: it terminates (fuel `n + 1` suffices when
every non-isolated node is below `n`) and assigns every iterated file a finite
level, a node revisited while being visited short-circuiting to
`max(levels.values()) + 1` when at least one level has been assigned — and to
`0` when none has — instead of recursing further. -/
theorem cycle_detection_and_levels (deps : Nat → List Nat) (n fuel : Nat)
    (keys files : List Nat) (st : DfsState) (c : List Nat)
    (hcl : KeyClosed deps keys)
    (hcyc : IsCycleIn deps keys c)
    (hdet : detect_cycles deps keys fuel = some (Except.ok st))
    (hbound : ∀ y, deps y ≠ [] → y < n) :
    dfs cyc3Deps 5 0 [] ⟨[], [], [], [0, 1]⟩
      = some ⟨[2, 1, 0], [], [[0, 1, 0]], [0, 1, 2]⟩ ∧
    detect_cycles cyc3Deps [0, 1] 5 = some (Except.error ()) ∧
    st.cycles ≠ [] ∧
    (∃ levels, get_dependency_levels deps files (n + 1) = some levels ∧
      ∀ f ∈ files, (lookupMemo levels f).isSome) ∧
    (∀ fuel' x visiting memo, x ∈ visiting → lookupMemo memo x = none →
      getLevelCore deps (fuel' + 1) x visiting memo = some (cycleLevel memo, memo)) ∧
    (∀ memo : List (Nat × Nat), memo ≠ [] → cycleLevel memo = maxAssigned memo + 1) ∧
    cycleLevel ([] : List (Nat × Nat)) = 0 := by
  refine ⟨rfl, rfl, ?_, ?_, ?_, ?_, rfl⟩
  · intro hcy
    simp only [detect_cycles] at hdet
    obtain ⟨h1, _, _, h4, h5⟩ :=
      detect_fold hcl keys ⟨[], [], [], keys⟩ st (fun k hk => hk) rfl rfl hdet
    have hbi := h5 (fun _ => ⟨[], List.nodup_nil, by simp, trivial⟩) hcy
    obtain ⟨bl, hnd, hmem, hgl⟩ := hbi
    obtain ⟨hne, hkeys, hchain, hclose⟩ := hcyc
    have hmemc : ∀ x ∈ c, x ∈ bl := by
      intro x hx
      refine (hmem x).mpr ⟨h4 x (hkeys x hx), ?_⟩
      rw [h1]
      exact List.not_mem_nil x
    exact goodList_no_cycle hnd hgl c hne hmemc hchain hclose
  · obtain ⟨levels, hfold, _, hall⟩ := levels_total hbound files []
    exact ⟨levels, hfold, hall⟩
  · intro fuel' x visiting memo hxv hm
    simp only [getLevelCore, hm, if_pos hxv]
  · intro memo hne
    cases memo with
    | nil => exact absurd rfl hne
    | cons p ps => rfl

/-- C4 counterexample to the claim as stated: in the two-node cycle `0 ↔ 1`,
the first short-circuit fires with an empty memo and returns level `0`, not
`1 + current_max_assigned_level = 1`; the surrounding run
`get_dependency_levels` then yields levels `0 ↦ 2`, `1 ↦ 1`. -/
theorem shortcircuit_claim_counterexample :
    getLevelCore cyc2Deps 3 0 [1, 0] [] = some (0, []) ∧
    1 + maxAssigned ([] : List (Nat × Nat)) = 1 ∧
    getLevelCore cyc2Deps 3 0 [1, 0] [] ≠
      some (1 + maxAssigned ([] : List (Nat × Nat)), []) ∧
    get_dependency_levels cyc2Deps [0, 1] 5 = some [(0, 2), (1, 1)] := by
  refine ⟨by decide, by decide, by decide, by decide⟩

/-- Witness for `cycle_detection_and_levels` at the two-node cycle `0 ↔ 1`,
whose key set is closed: the completed run reports a cycle and the level pass
terminates with every node assigned. -/
theorem cycle_detection_and_levels_witness :
    (DfsState.mk [1, 0] [] [[0, 1, 0]] [0, 1]).cycles ≠ [] ∧
    (∃ levels, get_dependency_levels cyc2Deps [0, 1] (2 + 1) = some levels ∧
      ∀ f ∈ [0, 1], (lookupMemo levels f).isSome) := by
  have h := cycle_detection_and_levels cyc2Deps 2 5 [0, 1] [0, 1]
    ⟨[1, 0], [], [[0, 1, 0]], [0, 1]⟩ [0, 1]
    (by unfold KeyClosed; decide)
    (by
      refine ⟨by decide, by decide, ?_, ?_⟩
      · exact List.chain'_cons.mpr ⟨by decide, List.chain'_singleton 1⟩
      · intro lst hd hl hh
        have h1 : ([0, 1] : List Nat).getLast? = some 1 := by decide
        rw [h1] at hl
        injection hl with hl
        have h2 : ([0, 1] : List Nat).head? = some 0 := rfl
        rw [h2] at hh
        injection hh with hh
        rw [← hl, ← hh]
        decide)
    rfl
    (by
      intro y hy
      by_contra hge
      push_neg at hge
      apply hy
      have h0 : y ≠ 0 := by omega
      have h1 : y ≠ 1 := by omega
      simp [cyc2Deps, h0, h1])
  exact ⟨h.2.2.1, h.2.2.2.1⟩

/-! ## Line-range chunking is an exact partition (C10) -/

theorem splitNl_ne_nil : ∀ cs : List Char, splitNl cs ≠ [] := by
  intro cs
  induction cs with
  | nil => simp [splitNl]
  | cons c cs ih =>
    cases h : splitNl cs with
    | nil => exact absurd h ih
    | cons l ls =>
      simp only [splitNl, h]
      by_cases hc : c = '\n'
      · simp [hc]
      · simp [hc]

theorem joinNl_cons_head (c : Char) (l : List Char) (ls : List (List Char)) :
    joinNl ((c :: l) :: ls) = c :: joinNl (l :: ls) := by
  cases ls with
  | nil => rfl
  | cons l2 ls2 => rfl

theorem joinNl_splitNl : ∀ cs : List Char, joinNl (splitNl cs) = cs := by
  intro cs
  induction cs with
  | nil => rfl
  | cons c cs ih =>
    cases h : splitNl cs with
    | nil => exact absurd h (splitNl_ne_nil cs)
    | cons l ls =>
      rw [h] at ih
      simp only [splitNl, h]
      by_cases hc : c = '\n'
      · rw [if_pos hc]
        subst hc
        simp only [joinNl]
        rw [List.nil_append, ih]
      · rw [if_neg hc]
        rw [joinNl_cons_head, ih]

theorem joinNl_append : ∀ (A B : List (List Char)), A ≠ [] → B ≠ [] →
    joinNl (A ++ B) = joinNl A ++ '\n' :: joinNl B := by
  intro A
  induction A with
  | nil => intro B h _; exact absurd rfl h
  | cons a A2 ih =>
    intro B _ hB
    cases A2 with
    | nil =>
      cases B with
      | nil => exact absurd rfl hB
      | cons b B2 => simp [joinNl]
    | cons a2 A3 =>
      have hih := ih B (by simp) hB
      simp only [List.cons_append] at hih
      simp only [List.cons_append, joinNl, List.append_eq]
      rw [hih]
      simp [List.append_assoc]

theorem joinNl_cons_of_ne (x : List Char) (ls : List (List Char)) (h : ls ≠ []) :
    joinNl (x :: ls) = x ++ '\n' :: joinNl ls := by
  cases ls with
  | nil => exact absurd rfl h
  | cons l2 ls2 => rfl

theorem charSlices_join (m : Nat) (hm : 0 < m) :
    ∀ (fuel : Nat) (ls : List (List Char)), ls ≠ [] → ls.length ≤ fuel →
      charSlices m fuel ls ≠ [] ∧ joinNl (charSlices m fuel ls) = joinNl ls := by
  intro fuel
  induction fuel with
  | zero =>
    intro ls hne hlen
    cases ls with
    | nil => exact absurd rfl hne
    | cons l ls2 => simp at hlen
  | succ fuel ih =>
    intro ls hne hlen
    cases ls with
    | nil => exact absurd rfl hne
    | cons l ls2 =>
      simp only [charSlices]
      have htake_ne : (l :: ls2).take m ≠ [] := by
        cases m with
        | zero => omega
        | succ k => simp [List.take]
      cases hdrop : (l :: ls2).drop m with
      | nil =>
        have htake : (l :: ls2).take m = l :: ls2 :=
          List.take_of_length_le (List.drop_eq_nil_iff.mp hdrop)
        refine ⟨by simp, ?_⟩
        rw [htake]
        have hcs : charSlices m fuel [] = [] := by cases fuel <;> rfl
        rw [hcs]
        rfl
      | cons d ds =>
        have hlen2 : (d :: ds).length ≤ fuel := by
          have hld := List.length_drop m (l :: ls2)
          rw [hdrop] at hld
          simp only [List.length_cons] at hld hlen ⊢
          omega
        obtain ⟨hne2, hjoin2⟩ := ih (d :: ds) (by simp) hlen2
        refine ⟨by simp, ?_⟩
        rw [joinNl_cons_of_ne _ _ hne2, hjoin2,
          ← joinNl_append _ _ htake_ne (by simp : (d :: ds) ≠ ([] : List (List Char))),
          ← hdrop, List.take_append_drop]

theorem covers_cons {m start stop : Nat} {ch : Chunk} {rest : List Chunk}
    (h1 : ch.start_line = start) (h2 : start < ch.end_line) (h3 : ch.end_line ≤ stop)
    (h4 : ch.end_line - ch.start_line ≤ m) (h5 : covers m ch.end_line stop rest) :
    covers m start stop (ch :: rest) :=
  ⟨h1, h2, h3, h4, h5⟩

theorem chunkByLinesGo_codes (m : Nat) :
    ∀ (fuel i : Nat) (ls : List String),
      (chunkByLinesGo m fuel i ls).map (fun ch => ch.code.data)
        = charSlices m fuel (ls.map String.data) := by
  intro fuel
  induction fuel with
  | zero =>
    intro i ls
    cases ls <;> rfl
  | succ fuel ih =>
    intro i ls
    cases ls with
    | nil => rfl
    | cons l ls2 =>
      simp only [chunkByLinesGo, charSlices, List.map_cons, List.cons.injEq]
      constructor
      · show joinNl (((l :: ls2).take m).map String.data) = _
        rw [List.map_take]
        rfl
      · rw [ih (i + m) ((l :: ls2).drop m), List.map_drop]
        rfl

theorem splitLargeChunkGo_codes (m s t : Nat) (imp : String) :
    ∀ (fuel i : Nat) (ls : List String),
      (splitLargeChunkGo m s t imp fuel i ls).map (fun ch => ch.code.data)
        = charSlices m fuel (ls.map String.data) := by
  intro fuel
  induction fuel with
  | zero =>
    intro i ls
    cases ls <;> rfl
  | succ fuel ih =>
    intro i ls
    cases ls with
    | nil => rfl
    | cons l ls2 =>
      simp only [splitLargeChunkGo, charSlices, List.map_cons, List.cons.injEq]
      constructor
      · show joinNl (((l :: ls2).take m).map String.data) = _
        rw [List.map_take]
        rfl
      · rw [ih (i + m) ((l :: ls2).drop m), List.map_drop]
        rfl

theorem chunkByLinesGo_covers (m : Nat) (hm : 0 < m) :
    ∀ (fuel i : Nat) (ls : List String), ls.length ≤ fuel →
      covers m i (i + ls.length) (chunkByLinesGo m fuel i ls) := by
  intro fuel
  induction fuel with
  | zero =>
    intro i ls hlen
    cases ls with
    | nil => simp [chunkByLinesGo, covers]
    | cons l ls2 => simp at hlen
  | succ fuel ih =>
    intro i ls hlen
    cases ls with
    | nil => simp [chunkByLinesGo, covers]
    | cons l ls2 =>
      simp only [chunkByLinesGo]
      have hlt : ((l :: ls2).take m).length = min m (l :: ls2).length :=
        List.length_take _ _
      have hlp : 0 < (l :: ls2).length := by simp
      refine covers_cons rfl ?_ ?_ ?_ ?_
      · show i < i + ((l :: ls2).take m).length
        omega
      · show i + ((l :: ls2).take m).length ≤ i + (l :: ls2).length
        omega
      · show i + ((l :: ls2).take m).length - i ≤ m
        omega
      · show covers m (i + ((l :: ls2).take m).length) (i + (l :: ls2).length)
          (chunkByLinesGo m fuel (i + m) ((l :: ls2).drop m))
        cases hdrop : (l :: ls2).drop m with
        | nil =>
          have hle : (l :: ls2).length ≤ m := List.drop_eq_nil_iff.mp hdrop
          have hrec : chunkByLinesGo m fuel (i + m) [] = [] := by cases fuel <;> rfl
          rw [hrec]
          show i + ((l :: ls2).take m).length = i + (l :: ls2).length
          omega
        | cons d ds =>
          have hmlt : m < (l :: ls2).length := by
            by_contra hcon
            push_neg at hcon
            rw [List.drop_eq_nil_iff.mpr hcon] at hdrop
            cases hdrop
          have hlen2 : ((l :: ls2).drop m).length ≤ fuel := by
            rw [List.length_drop]
            simp only [List.length_cons] at hlen ⊢
            omega
          have hres := ih (i + m) ((l :: ls2).drop m) hlen2
          rw [hdrop] at hres
          have hdl : (d :: ds).length = (l :: ls2).length - m := by
            rw [← hdrop, List.length_drop]
          have h1 : i + ((l :: ls2).take m).length = i + m := by omega
          have h2 : i + m + (d :: ds).length = i + (l :: ls2).length := by omega
          rw [h1]
          rw [h2] at hres
          exact hres

theorem splitLargeChunkGo_covers (m s : Nat) (hm : 0 < m) (imp : String) :
    ∀ (fuel i totalLen : Nat) (ls : List String),
      i + ls.length = totalLen → ls.length ≤ fuel →
      covers m (s + i) (s + totalLen) (splitLargeChunkGo m s totalLen imp fuel i ls) := by
  intro fuel
  induction fuel with
  | zero =>
    intro i totalLen ls htot hlen
    cases ls with
    | nil =>
      show (s + i = s + totalLen)
      simp only [List.length_nil] at htot
      omega
    | cons l ls2 => simp at hlen
  | succ fuel ih =>
    intro i totalLen ls htot hlen
    cases ls with
    | nil =>
      show (s + i = s + totalLen)
      simp only [List.length_nil] at htot
      omega
    | cons l ls2 =>
      simp only [splitLargeChunkGo]
      have hlp : 0 < (l :: ls2).length := by simp
      refine covers_cons rfl ?_ ?_ ?_ ?_
      · show s + i < s + min (i + m) totalLen
        omega
      · show s + min (i + m) totalLen ≤ s + totalLen
        omega
      · show s + min (i + m) totalLen - (s + i) ≤ m
        omega
      · show covers m (s + min (i + m) totalLen) (s + totalLen)
          (splitLargeChunkGo m s totalLen imp fuel (i + m) ((l :: ls2).drop m))
        cases hdrop : (l :: ls2).drop m with
        | nil =>
          have hle : (l :: ls2).length ≤ m := List.drop_eq_nil_iff.mp hdrop
          have hrec : splitLargeChunkGo m s totalLen imp fuel (i + m) [] = [] := by
            cases fuel <;> rfl
          rw [hrec]
          show s + min (i + m) totalLen = s + totalLen
          omega
        | cons d ds =>
          have hmlt : m < (l :: ls2).length := by
            by_contra hcon
            push_neg at hcon
            rw [List.drop_eq_nil_iff.mpr hcon] at hdrop
            cases hdrop
          have hlen2 : ((l :: ls2).drop m).length ≤ fuel := by
            rw [List.length_drop]
            simp only [List.length_cons] at hlen ⊢
            omega
          have htot2 : (i + m) + ((l :: ls2).drop m).length = totalLen := by
            rw [List.length_drop]
            omega
          have hres := ih (i + m) totalLen ((l :: ls2).drop m) htot2 hlen2
          rw [hdrop] at hres
          have heq : s + min (i + m) totalLen = s + (i + m) := by omega
          rw [heq]
          exact hres

theorem strMk_data (s : String) : String.mk s.data = s := by
  cases s
  rfl

/-- C10: for positive `maxLines`, the fallback line-range chunking
`_chunk_by_lines` partitions its input exactly — the chunks tile the line
range in original order, each at most `maxLines` lines — and joining the
chunks' `code` fields with single newlines reconstructs the input character
for character; likewise for `_split_large_chunk` on an oversized declaration
starting at `start`. -/
theorem chunk_by_lines_partition (m : Nat) (code chunk_code : String)
    (start : Nat) (imp : String) (hm : 0 < m) :
    joinLines ((chunk_by_lines m code).map (fun ch => ch.code)) = code ∧
    covers m 0 (pySplitLines code).length (chunk_by_lines m code) ∧
    joinLines ((split_large_chunk m chunk_code start imp).map (fun ch => ch.code))
      = chunk_code ∧
    covers m start (start + (pySplitLines chunk_code).length)
      (split_large_chunk m chunk_code start imp) := by
  have hlines : ∀ s : String, (pySplitLines s).map String.data = splitNl s.data := by
    intro s
    unfold pySplitLines
    simp only [List.map_map]
    have hcomp : String.data ∘ (fun l => String.mk l) = id := funext (fun l => rfl)
    rw [hcomp, List.map_id]
  have hjoin : ∀ s : String,
      joinNl (charSlices m (pySplitLines s).length ((pySplitLines s).map String.data))
        = s.data := by
    intro s
    have hne : (pySplitLines s).map String.data ≠ [] := by
      rw [hlines s]
      exact splitNl_ne_nil _
    have hlen : ((pySplitLines s).map String.data).length ≤ (pySplitLines s).length := by
      rw [List.length_map]
    obtain ⟨_, hj⟩ := charSlices_join m hm (pySplitLines s).length
      ((pySplitLines s).map String.data) hne hlen
    rw [hj, hlines s, joinNl_splitNl]
  refine ⟨?_, ?_, ?_, ?_⟩
  · show String.mk (joinNl (((chunk_by_lines m code).map (fun ch => ch.code)).map
      String.data)) = code
    rw [List.map_map]
    show String.mk (joinNl ((chunkByLinesGo m (pySplitLines code).length 0
      (pySplitLines code)).map (fun ch => ch.code.data))) = code
    rw [chunkByLinesGo_codes, hjoin code]
  · have := chunkByLinesGo_covers m hm (pySplitLines code).length 0 (pySplitLines code)
      (le_refl _)
    rwa [Nat.zero_add] at this
  · show String.mk (joinNl (((split_large_chunk m chunk_code start imp).map
      (fun ch => ch.code)).map String.data)) = chunk_code
    rw [List.map_map]
    show String.mk (joinNl ((splitLargeChunkGo m start (pySplitLines chunk_code).length
      imp (pySplitLines chunk_code).length 0 (pySplitLines chunk_code)).map
      (fun ch => ch.code.data))) = chunk_code
    rw [splitLargeChunkGo_codes, hjoin chunk_code]
  · have := splitLargeChunkGo_covers m start hm imp (pySplitLines chunk_code).length 0
      (pySplitLines chunk_code).length (pySplitLines chunk_code) (by omega) (le_refl _)
    rwa [Nat.add_zero] at this

/-- Witness for `chunk_by_lines_partition`: with `maxLines = 1` the two-line
input is split into two one-line chunks whose join is the input. -/
theorem chunk_by_lines_partition_witness :
    joinLines ((chunk_by_lines 1 "a\nb").map (fun ch => ch.code)) = "a\nb" ∧
    covers 1 0 (pySplitLines "a\nb").length (chunk_by_lines 1 "a\nb") := by
  have h := chunk_by_lines_partition 1 "a\nb" "x" 0 "" (by decide)
  exact ⟨h.1, h.2.1⟩

/-! ## String and association-list helper lemmas -/

theorem strData_append (a b : String) : (a ++ b).data = a.data ++ b.data := by
  cases a
  cases b
  rfl

theorem strLower_append (a b : String) : strLower (a ++ b) = strLower a ++ strLower b := by
  show String.mk ((a ++ b).data.map Char.toLower) = _
  rw [strData_append, List.map_append]
  rfl

theorem listContains_nil_pat : ∀ l : List Char, listContains [] l = true := by
  intro l
  cases l with
  | nil => rfl
  | cons c cs => simp [listContains, List.isPrefixOf]

theorem isPrefixOf_append (pat : List Char) : ∀ a b : List Char,
    pat.isPrefixOf a = true → pat.isPrefixOf (a ++ b) = true := by
  induction pat with
  | nil => intro a b _; simp [List.isPrefixOf]
  | cons p ps ih =>
    intro a b h
    cases a with
    | nil => simp [List.isPrefixOf] at h
    | cons x xs =>
      simp only [List.isPrefixOf, Bool.and_eq_true] at h
      simp only [List.cons_append, List.isPrefixOf, Bool.and_eq_true]
      exact ⟨h.1, ih xs b h.2⟩

theorem listContains_append_left (pat a b : List Char)
    (h : listContains pat a = true) : listContains pat (a ++ b) = true := by
  induction a with
  | nil =>
    simp only [listContains] at h
    rw [List.isEmpty_iff] at h
    subst h
    simp only [List.nil_append]
    exact listContains_nil_pat b
  | cons c cs ih =>
    simp only [listContains, Bool.or_eq_true] at h ⊢
    rcases h with h | h
    · left
      exact isPrefixOf_append _ _ b h
    · right
      exact ih h

theorem containsSub_token_header (m : String) :
    containsSub "token" (strLower ("Token limit exceeded: " ++ m)) = true := by
  rw [strLower_append]
  unfold containsSub
  rw [strData_append]
  exact listContains_append_left _ _ _ (by decide)

theorem append_ne_empty (a b : String) (ha : a.data ≠ []) : a ++ b ≠ "" := by
  intro h
  have hd := congrArg String.data h
  rw [strData_append] at hd
  exact ha (List.append_eq_nil.mp hd).1

theorem findAssoc_cons_self {β : Type} (l : List (String × β)) (k : String) (v : β) :
    findAssoc ((k, v) :: l) k = some v := by
  unfold findAssoc
  rw [List.find?_cons_of_pos]
  · rfl
  · simp

theorem findAssoc_cons_ne {β : Type} (l : List (String × β)) {k k' : String} (v : β)
    (h : k' ≠ k) : findAssoc ((k', v) :: l) k = findAssoc l k := by
  unfold findAssoc
  rw [List.find?_cons_of_neg]
  simp [h]

theorem findAssoc_setAssoc {β : Type} (l : List (String × β)) (k : String) (v : β) :
    findAssoc (setAssoc l k v) k = some v := by
  induction l with
  | nil =>
    show findAssoc [(k, v)] k = some v
    exact findAssoc_cons_self [] k v
  | cons p rest ih =>
    obtain ⟨k', v'⟩ := p
    by_cases h : k' = k
    · subst h
      show findAssoc (if k' = k' then (k', v) :: rest else (k', v') :: setAssoc rest k' v) k'
        = some v
      rw [if_pos rfl]
      exact findAssoc_cons_self rest k' v
    · show findAssoc (if k' = k then (k, v) :: rest else (k', v') :: setAssoc rest k v) k
        = some v
      rw [if_neg h, findAssoc_cons_ne _ _ h]
      exact ih

/-! ## Chunked aggregate acceptance (C5) -/

/-- C5: the chunked upgrade's aggregate result succeeds iff the reassembled
artifact validates and the failed-chunk fraction is at most `0.2`; on failure
the error message carries the failed chunk names and/or the validation error;
and the reassembled artifact — imports header plus every chunk output, failed
chunks keeping their original code — is the written output regardless of the
verdict. -/
theorem upgrade_chunked_spec (input_path : String) (first : Chunk) (rest : List Chunk)
    (outcome : Nat → Option (Nat × String)) (maxRetries : Nat)
    (validate : String → Bool × String) (ups fails : List String) (tot : Nat)
    (hrun : runChunks outcome maxRetries 0 (first :: rest) = (ups, fails, tot)) :
    ∃ res : FileUpgradeResult,
      upgrade_chunked input_path (first :: rest) outcome maxRetries validate
        = some (reassemble first ups, res) ∧
      (res.success = true ↔
        (validate (reassemble first ups)).1 = true ∧
        (fails.length : ℚ) / ((first :: rest).length : ℚ) ≤ 1 / 5) ∧
      res.attempts = tot ∧ res.file_path = input_path ∧
      (fails ≠ [] → (validate (reassemble first ups)).1 = false →
        res.error = some ("Failed chunks: " ++ String.intercalate ", " fails
          ++ "; Validation error: " ++ (validate (reassemble first ups)).2)) ∧
      (fails ≠ [] → (validate (reassemble first ups)).1 = true →
        res.error = some ("Failed chunks: " ++ String.intercalate ", " fails)) ∧
      (fails = [] → (validate (reassemble first ups)).1 = false →
        res.error = some ("Validation error: " ++ (validate (reassemble first ups)).2)) := by
  refine ⟨⟨input_path,
      (validate (reassemble first ups)).1 &&
        decide ((4 : ℚ) / 5 ≤ (((first :: rest).length : ℚ) - (fails.length : ℚ))
          / ((first :: rest).length : ℚ)),
      tot,
      if fails ≠ [] then
        if !(validate (reassemble first ups)).1 then
          some ("Failed chunks: " ++ String.intercalate ", " fails
            ++ "; Validation error: " ++ (validate (reassemble first ups)).2)
        else some ("Failed chunks: " ++ String.intercalate ", " fails)
      else if !(validate (reassemble first ups)).1 then
        some ("Validation error: " ++ (validate (reassemble first ups)).2)
      else none⟩, ?_, ?_, rfl, rfl, ?_, ?_, ?_⟩
  · unfold upgrade_chunked
    rw [hrun]
    rfl
  · show ((validate (reassemble first ups)).1 &&
      decide ((4 : ℚ) / 5 ≤ (((first :: rest).length : ℚ) - (fails.length : ℚ))
        / ((first :: rest).length : ℚ))) = true ↔ _
    rw [Bool.and_eq_true, decide_eq_true_eq]
    have hT : (0 : ℚ) < ((first :: rest).length : ℚ) := by
      have h0 : 0 < (first :: rest).length := by simp
      exact_mod_cast h0
    constructor
    · rintro ⟨hv, hr⟩
      refine ⟨hv, ?_⟩
      rw [le_div_iff₀ hT] at hr
      rw [div_le_iff₀ hT]
      linarith
    · rintro ⟨hv, hr⟩
      refine ⟨hv, ?_⟩
      rw [div_le_iff₀ hT] at hr
      rw [le_div_iff₀ hT]
      linarith
  · intro hfs hv
    show (if fails ≠ [] then _ else _) = _
    rw [if_pos hfs]
    simp [hv]
  · intro hfs hv
    show (if fails ≠ [] then _ else _) = _
    rw [if_pos hfs]
    simp [hv]
  · intro hfs hv
    show (if fails ≠ [] then _ else _) = _
    rw [if_neg (by simp [hfs])]
    simp [hv]

/-- Witness for `upgrade_chunked_spec`: one chunk, its upgrade succeeding in
one attempt and the reassembled file validating, gives an aggregate success. -/
theorem upgrade_chunked_spec_witness :
    ∃ res : FileUpgradeResult,
      upgrade_chunked "f.py" [chunkFull] okOutcome 3 okValidate
        = some (reassemble chunkFull ["print(2)"], res) ∧ res.success = true := by
  obtain ⟨res, heq, hiff, _⟩ := upgrade_chunked_spec "f.py" chunkFull [] okOutcome 3
    okValidate ["print(2)"] [] 1 (by decide)
  refine ⟨res, heq, hiff.mpr ⟨rfl, by norm_num⟩⟩

/-! ## Token-limit abort and chunk escalation (C6) -/

/-- C6: a Transformer invocation failing with a size/length-limit error aborts
the whole-file loop at the current attempt — for every amount of remaining
attempts — producing the distinguished `Token limit exceeded:` failure; that
failure satisfies the escalation test, and for a medium file (whole-file
attempted first, below the 3000-line chunk threshold) `upgrade_file` then
switches to the chunked path. -/
theorem token_limit_abort_and_escalation
    (transform : Nat → String → Option String → LLMOutcome)
    (validate : String → Bool × String) (path current : String)
    (error : Option String) (maxR r attempt lc : Nat) (m : String)
    (std ch : FileUpgradeResult)
    (htr : transform attempt current error = LLMOutcome.err m)
    (htok : isTokenMsg m = true)
    (hlc1 : 1000 ≤ lc) (hlc2 : lc < 3000)
    (hstd_s : std.success = false)
    (hstd_e : std.error = some ("Token limit exceeded: " ++ m)) :
    upgradeStandardGo transform validate path maxR (r + 1) attempt current error
      = ⟨path, false, attempt, some ("Token limit exceeded: " ++ m)⟩ ∧
    tokenEscalate std = true ∧
    upgrade_file_decision lc std ch = ch := by
  have htes : tokenEscalate std = true := by
    simp only [tokenEscalate, hstd_s, hstd_e, Bool.not_false, Bool.true_and]
    have hne : ("Token limit exceeded: " ++ m) ≠ "" :=
      append_ne_empty _ _ (by decide)
    have hcs := containsSub_token_header m
    simp [hne, hcs]
  refine ⟨?_, htes, ?_⟩
  · simp only [upgradeStandardGo, htr, htok, if_true]
  · simp only [upgrade_file_decision]
    rw [if_neg (by omega : ¬ lc < 1000), if_pos (by omega : lc < 3000)]
    simp [htes]

/-- Witness for `token_limit_abort_and_escalation`: a context-length error at
attempt 2 with three attempts remaining returns immediately with
`attempts = 2`, and a 1500-line file escalates to chunked processing. -/
theorem token_limit_abort_and_escalation_witness :
    upgradeStandardGo (fun _ _ _ => LLMOutcome.err "context_length exceeded")
      okValidate "f.py" 5 (3 + 1) 2 "code" none
      = ⟨"f.py", false, 2, some ("Token limit exceeded: " ++ "context_length exceeded")⟩ ∧
    upgrade_file_decision 1500
      ⟨"f.py", false, 2, some ("Token limit exceeded: " ++ "context_length exceeded")⟩
      ⟨"f.py", true, 1, none⟩ = ⟨"f.py", true, 1, none⟩ := by
  have h := token_limit_abort_and_escalation
    (fun _ _ _ => LLMOutcome.err "context_length exceeded") okValidate "f.py" "code"
    none 5 3 2 1500 "context_length exceeded"
    ⟨"f.py", false, 2, some ("Token limit exceeded: " ++ "context_length exceeded")⟩
    ⟨"f.py", true, 1, none⟩ rfl (by decide) (by decide) (by decide) rfl rfl
  exact ⟨h.1, h.2.2⟩

/-! ## Validation-failure retries build on the candidate (C8) -/

/-- C8: when a candidate passes the rejection checks but fails validation, the
next loop iteration runs with the candidate as the new current content, the
validator's message as the prior error and the attempt counter incremented;
the loop body runs only while attempts remain (exhaustion returns the failure
with the last error), and `_upgrade_standard` starts at attempt 1 with the
original content. -/
theorem retry_carries_candidate_forward
    (transform : Nat → String → Option String → LLMOutcome)
    (validate : String → Bool × String) (path old : String) (maxR r attempt : Nat)
    (current candidate msg : String) (error : Option String)
    (htr : transform attempt current error = LLMOutcome.resp candidate)
    (hne : ¬ pyStrip candidate = "")
    (hap : isApology (pyStrip candidate) = false)
    (hph : startsWithStr "# upgraded code here" (pyStrip candidate) = false)
    (hval : validate candidate = (false, msg)) :
    upgradeStandardGo transform validate path maxR (r + 1) attempt current error
      = upgradeStandardGo transform validate path maxR r (attempt + 1) candidate
          (some msg) ∧
    (∀ a c e, upgradeStandardGo transform validate path maxR 0 a c e
      = ⟨path, false, maxR, some (match e with
          | none => "Maximum retries exceeded"
          | some s => if s = "" then "Maximum retries exceeded" else s)⟩) ∧
    upgrade_standard transform validate path old maxR
      = upgradeStandardGo transform validate path maxR maxR 1 old none := by
  refine ⟨?_, fun a c e => rfl, rfl⟩
  simp only [upgradeStandardGo, htr, hval]
  rw [if_neg hne, if_neg (by simp [hap, hph])]
  simp

/-- Witness for `retry_carries_candidate_forward`: a concrete invalid
candidate is carried into the next attempt together with the validator's
message. -/
theorem retry_carries_candidate_forward_witness :
    upgradeStandardGo (fun _ _ _ => LLMOutcome.resp "cand")
      (fun _ => (false, "bad syntax")) "f.py" 5 (2 + 1) 3 "orig" none
      = upgradeStandardGo (fun _ _ _ => LLMOutcome.resp "cand")
          (fun _ => (false, "bad syntax")) "f.py" 5 2 (3 + 1) "cand"
          (some "bad syntax") :=
  (retry_carries_candidate_forward (fun _ _ _ => LLMOutcome.resp "cand")
    (fun _ => (false, "bad syntax")) "f.py" "orig" 5 2 3 "orig" "cand" "bad syntax"
    none rfl (by decide) (by decide) (by decide) rfl).1

/-! ## Cache round-trip (C7) -/

/-- C7 counterexample to the claim as stated: record a *successful* result
with output `O = ""` (Python's `if upgraded_code and result.success` treats
the empty string as falsy, so no blob is stored).  `is_file_cached` then
returns `True`, but `restore_from_cache` returns `False` and writes nothing —
it does not yield `O`. -/
theorem cache_roundtrip_counterexample :
    is_file_cached (fun s => s)
      (cache_result (fun s => s) emptyCache "f.py" ⟨"f.py", true, 1, none⟩ (some "") "c")
      "f.py" "c" = true ∧
    restore_from_cache
      (cache_result (fun s => s) emptyCache "f.py" ⟨"f.py", true, 1, none⟩ (some "") "c")
      "f.py" = none := by
  refine ⟨by decide, by decide⟩

/-- C7 (amended): after recording a successful result with *non-empty* output
`O` while the item's content is unchanged, `is_file_cached` returns true and
`restore_from_cache` writes exactly `O`; and `is_file_cached` returns false
whenever the entry is absent, the current hash differs from the stored hash,
or the stored success flag is false. -/
theorem cache_roundtrip
    (hash : String → String) (st : CacheState) (key : String)
    (res : FileUpgradeResult) (O content : String)
    (hsucc : res.success = true) (hO : O ≠ "") :
    is_file_cached hash (cache_result hash st key res (some O) content) key content
      = true ∧
    restore_from_cache (cache_result hash st key res (some O) content) key = some O ∧
    (∀ (st₂ : CacheState) (k₂ c₂ : String),
      (findAssoc st₂.files k₂ = none → is_file_cached hash st₂ k₂ c₂ = false) ∧
      (∀ e, findAssoc st₂.files k₂ = some e → hash c₂ ≠ e.input_hash →
        is_file_cached hash st₂ k₂ c₂ = false) ∧
      (∀ e, findAssoc st₂.files k₂ = some e → e.success = false →
        is_file_cached hash st₂ k₂ c₂ = false)) := by
  have hstore : cache_result hash st key res (some O) content
      = { files := setAssoc st.files key
            ⟨res.success, res.attempts, hash content, res.error, some (blobPath key)⟩,
          blobs := setAssoc st.blobs (blobPath key) O } := by
    simp only [cache_result]
    rw [if_pos ⟨hO, hsucc⟩]
  refine ⟨?_, ?_, ?_⟩
  · rw [hstore]
    unfold is_file_cached
    simp only []
    rw [findAssoc_setAssoc]
    simp [hsucc]
  · rw [hstore]
    unfold restore_from_cache
    simp only []
    rw [findAssoc_setAssoc]
    simp only []
    rw [findAssoc_setAssoc]
  · intro st₂ k₂ c₂
    refine ⟨?_, ?_, ?_⟩
    · intro habs
      unfold is_file_cached
      rw [habs]
    · intro e hfind hne
      unfold is_file_cached
      rw [hfind]
      simp [hne]
    · intro e hfind hfail
      unfold is_file_cached
      rw [hfind]
      by_cases hh : hash c₂ ≠ e.input_hash
      · simp [hh]
      · simp [hh, hfail]

/-- Witness for `cache_roundtrip`: recording `"new code"` for an unchanged
file makes it a hit and restore returns exactly that output. -/
theorem cache_roundtrip_witness :
    is_file_cached (fun s => s)
      (cache_result (fun s => s) emptyCache "f.py" ⟨"f.py", true, 1, none⟩
        (some "new code") "c") "f.py" "c" = true ∧
    restore_from_cache
      (cache_result (fun s => s) emptyCache "f.py" ⟨"f.py", true, 1, none⟩
        (some "new code") "c") "f.py" = some "new code" := by
  have h := cache_roundtrip (fun s => s) emptyCache "f.py" ⟨"f.py", true, 1, none⟩
    "new code" "c" rfl (by decide)
  exact ⟨h.1, h.2.1⟩

/-! ## Batch results: one entry per item, failures as data (C9) -/

theorem findAssoc_append_left_none {β : Type} (a b : List (String × β)) (k : String)
    (ha : findAssoc a k = none) : findAssoc (a ++ b) k = findAssoc b k := by
  induction a with
  | nil => simp
  | cons p rest ih =>
    obtain ⟨k', v'⟩ := p
    by_cases h : k' = k
    · subst h
      rw [findAssoc_cons_self] at ha
      cases ha
    · rw [findAssoc_cons_ne _ _ h] at ha
      rw [List.cons_append, findAssoc_cons_ne _ _ h]
      exact ih ha

theorem setAssoc_not_mem {β : Type} : ∀ (l : List (String × β)) (k : String) (v : β),
    findAssoc l k = none → setAssoc l k v = l ++ [(k, v)] := by
  intro l
  induction l with
  | nil => intro k v _; rfl
  | cons p rest ih =>
    intro k v h
    obtain ⟨k', v'⟩ := p
    by_cases hk : k' = k
    · subst hk
      rw [findAssoc_cons_self] at h
      cases h
    · rw [findAssoc_cons_ne _ _ hk] at h
      show (if k' = k then (k, v) :: rest else (k', v') :: setAssoc rest k v) = _
      rw [if_neg hk, ih k v h]
      rfl

theorem foldl_setAssoc_fresh {β : Type} :
    ∀ (pairs acc : List (String × β)),
      (∀ p ∈ pairs, findAssoc acc p.1 = none) →
      (pairs.map Prod.fst).Nodup →
      pairs.foldl (fun d p => setAssoc d p.1 p.2) acc = acc ++ pairs := by
  intro pairs
  induction pairs with
  | nil => intro acc _ _; simp
  | cons p ps ih =>
    intro acc hfresh hnd
    obtain ⟨k, v⟩ := p
    simp only [List.foldl_cons]
    rw [setAssoc_not_mem acc k v (hfresh (k, v) (List.mem_cons_self _ _))]
    rw [ih (acc ++ [(k, v)]) ?_ ?_]
    · simp
    · intro q hq
      rw [findAssoc_append_left_none _ _ _ (hfresh q (List.mem_cons_of_mem _ hq))]
      have hqk : q.1 ≠ k := by
        simp only [List.map_cons, List.nodup_cons] at hnd
        intro he
        exact hnd.1 (he ▸ List.mem_map_of_mem Prod.fst hq)
      rw [findAssoc_cons_ne _ _ (Ne.symm hqk)]
      rfl
    · simp only [List.map_cons, List.nodup_cons] at hnd
      exact hnd.2

theorem process_batch_eq_map (oracle : String → Except String FileUpgradeResult)
    (files : List String) (hnd : files.Nodup) :
    process_batch oracle files
      = files.map (fun f => (f, process_file_async oracle f)) := by
  unfold process_batch
  rw [foldl_setAssoc_fresh _ [] (by intro p _; rfl) ?_]
  · simp
  · rw [List.map_map]
    have : (Prod.fst ∘ fun f => (f, process_file_async oracle f)) = id :=
      funext (fun f => rfl)
    rw [this, List.map_id]
    exact hnd

theorem findAssoc_map_mem (oracle : String → Except String FileUpgradeResult) :
    ∀ (files : List String), files.Nodup → ∀ f ∈ files,
      findAssoc (files.map (fun g => (g, process_file_async oracle g))) f
        = some (process_file_async oracle f) := by
  intro files
  induction files with
  | nil => intro _ f hf; cases hf
  | cons x xs ih =>
    intro hnd f hf
    rw [List.map_cons]
    rcases List.mem_cons.mp hf with rfl | hin
    · exact findAssoc_cons_self _ _ _
    · have hx : x ≠ f := by
        intro he
        exact (List.nodup_cons.mp hnd).1 (he ▸ hin)
      rw [findAssoc_cons_ne _ _ hx]
      exact ih (List.nodup_cons.mp hnd).2 f hin

/-- C9: for a duplicate-free batch, the aggregate result dict has exactly the
original items as keys, each mapped to its own item's outcome; an item whose
processing raised an exception is present as a failed result carrying the
message (and attempt count 0), and an item's entry depends only on its own
oracle outcome, so one item's exception never changes a sibling's entry. -/
theorem process_batch_complete
    (oracle o₂ : String → Except String FileUpgradeResult)
    (files : List String) (f g e : String)
    (hnd : files.Nodup) (hf : f ∈ files)
    (hexn : oracle f = Except.error e)
    (hg : g ∈ files) (hagree : oracle g = o₂ g) :
    (process_batch oracle files).map Prod.fst = files ∧
    findAssoc (process_batch oracle files) f = some (process_file_async oracle f) ∧
    process_file_async oracle f = ⟨f, false, 0, some ("Processing error: " ++ e)⟩ ∧
    findAssoc (process_batch oracle files) g
      = findAssoc (process_batch o₂ files) g := by
  refine ⟨?_, ?_, ?_, ?_⟩
  · rw [process_batch_eq_map oracle files hnd, List.map_map]
    have : (Prod.fst ∘ fun f => (f, process_file_async oracle f)) = id :=
      funext (fun f => rfl)
    rw [this, List.map_id]
  · rw [process_batch_eq_map oracle files hnd]
    exact findAssoc_map_mem oracle files hnd f hf
  · unfold process_file_async
    rw [hexn]
  · rw [process_batch_eq_map oracle files hnd, process_batch_eq_map o₂ files hnd,
      findAssoc_map_mem oracle files hnd g hg, findAssoc_map_mem o₂ files hnd g hg]
    unfold process_file_async
    rw [hagree]

/-- Witness for `process_batch_complete`: a two-file batch where the first
file's processing raises keeps one entry per file, the raising file marked
failed with its message, the sibling untouched. -/
theorem process_batch_complete_witness :
    (process_batch (fun f => if f = "a.py" then Except.error "boom"
        else Except.ok ⟨"b.py", true, 1, none⟩) ["a.py", "b.py"]).map Prod.fst
      = ["a.py", "b.py"] ∧
    process_file_async (fun f => if f = "a.py" then Except.error "boom"
        else Except.ok ⟨"b.py", true, 1, none⟩) "a.py"
      = ⟨"a.py", false, 0, some ("Processing error: " ++ "boom")⟩ := by
  have h := process_batch_complete
    (fun f => if f = "a.py" then Except.error "boom"
      else Except.ok ⟨"b.py", true, 1, none⟩)
    (fun f => if f = "a.py" then Except.error "boom"
      else Except.ok ⟨"b.py", true, 1, none⟩)
    ["a.py", "b.py"] "a.py" "b.py" "boom" (by decide) (by decide) rfl
    (by decide) rfl
  exact ⟨h.1, h.2.2.1⟩

end Pipeline
